import Mathlib

/-! `List.hpp`: a shallow embedding of `template<class T> class List`

The class owns `int cursor` and `std::vector<T> theElements`.  It is the structure `ListT`
here (`List` being Lean's own list type, which stands for the `std::vector`), and each
member function is translated under its own name with the receiver as first argument:
`ListT.slice`, `ListT.remove`, …; the overloads of `add` are `add`, `addAt` and `addList`,
`operator[]` is `index`, `operator=` is `assign`, `end` is `end_`.

Conventions of the embedding

* `int` is a 32-bit two's-complement integer, `size_t` a 64-bit unsigned one.  `int`
  values are carried as `Int`; an `int` increment goes through `wrapInt`, the conversion
  that happens when an `int` is compared with (or used as an index into) a `size_t` goes
  through `toSizeT`, and `static_cast<int>( size )` goes through `toInt`.
* A member function that can stop without returning (a failed `assert`, an access to
  `theElements` outside its bounds) returns a `Result`.
* A member function that writes to the receiver returns the receiver's new state next to
  its result.  The cumulative operations return `List<T>` *by value*: the result is a
  copy of the receiver, a second object.
* Loops are bounded by an explicit number of iterations (`fuel`); a theorem that states a
  returned value thereby states that the bound passed by the member function suffices.
-/

namespace ListHpp

/-! ## Machine integers -/

/-- Largest value of a 32-bit `int`, `2^31 - 1`. -/
def INT_MAX : Int := 2147483647

/-- Smallest value of a 32-bit `int`, `-2^31`. -/
def INT_MIN : Int := -2147483648

/-- The values an `int` can hold. -/
def isInt (x : Int) : Prop := INT_MIN ≤ x ∧ x ≤ INT_MAX

instance (x : Int) : Decidable (isInt x) :=
  inferInstanceAs (Decidable (INT_MIN ≤ x ∧ x ≤ INT_MAX))

/-- Result of an `int` computation whose mathematical value is `x`: reduced modulo `2^32`
into `[-2^31, 2^31)`. -/
def wrapInt (x : Int) : Int := (x + 2147483648) % 4294967296 - 2147483648

/-- Conversion of an `int` to `size_t` (the usual arithmetic conversion applied when an
`int` meets `theElements.size()` or is used as a vector index): reduction modulo `2^64`. -/
def toSizeT (x : Int) : Nat := (x % 18446744073709551616).toNat

/-- The conversion `static_cast<int>( n )` of a `size_t`. -/
def toInt (n : Nat) : Int := wrapInt (n : Int)

/-- Ways in which a member function stops without returning. -/
inductive Fault where
  /-- an `assert( … )` evaluated to false -/
  | assertion
  /-- `theElements[ i ]` with `i` outside `[0, size)` -/
  | outOfBounds
  /-- the iteration bound of the embedding was reached -/
  | outOfFuel
  deriving DecidableEq, Repr

/-- Outcome of a call: the returned value, or the fault that stopped it. -/
inductive Result (α : Type) where
  | ok (value : α)
  | error (fault : Fault)
  deriving DecidableEq, Repr

/-- Applies `f` to the value of a call that returned. -/
def Result.map {α β : Type} (f : α → β) : Result α → Result β
  | .ok a => .ok (f a)
  | .error e => .error e

/-- The subscript `v[ i ]` of `std::vector<T>` with an `int` index. -/
def vectorAt {T : Type} (v : List T) (i : Int) : Result T :=
  match v[toSizeT i]? with
  | some x => .ok x
  | none => .error .outOfBounds

/-- The loop `for ( int i = 0; cond( i ); i++ ) body( i )`, started at `i` on the loop state
`s`, running at most `fuel` tests of the condition. -/
def forLoop {σ : Type} (cond : Int → Bool) (body : Int → σ → Result σ) :
    Nat → Int → σ → Result σ
  | 0, _, _ => .error .outOfFuel
  | fuel + 1, i, s =>
    if cond i then
      match body i s with
      | .ok s' => forLoop cond body fuel (wrapInt (i + 1)) s'
      | .error e => .error e
    else .ok s

/-! ## The data model -/

/-- The class `List<T>`: the iteration cursor and the elements. -/
structure ListT (T : Type) where
  cursor : Int
  theElements : List T
  deriving DecidableEq, Repr

namespace ListT

variable {T : Type}

/-- The constructor `List<T>()`: no elements, cursor `0`. -/
def new : ListT T := ⟨0, []⟩

/-- The member `int count()`: `static_cast<int>( theElements.size() )`. -/
def count (self : ListT T) : Int := toInt self.theElements.length

/-- A list whose size is a value of `int`, the type the class uses for every index and
for `count()`. -/
def fitsInt (self : ListT T) : Prop := (self.theElements.length : Int) ≤ INT_MAX

instance (self : ListT T) : Decidable (fitsInt self) :=
  inferInstanceAs (Decidable ((self.theElements.length : Int) ≤ INT_MAX))

/-- The member `void resetCursor( int position = 0 )`. -/
def resetCursor (self : ListT T) (position : Int) : ListT T :=
  { self with cursor := position }

/-- The member `bool hasNext()`: `cursor < theElements.size()`, an unsigned comparison. -/
def hasNext (self : ListT T) : Bool := toSizeT self.cursor < self.theElements.length

/-- The member `T next()`: `theElements[ cursor++ ]`.  The cursor is incremented whether or
not the old cursor is a valid index; the read is the first component. -/
def next (self : ListT T) : Result T × ListT T :=
  (vectorAt self.theElements self.cursor, { self with cursor := wrapInt (self.cursor + 1) })

/-- The member `int add( T element )`: `push_back`, then the new size. -/
def add (self : ListT T) (element : T) : Int × ListT T :=
  (toInt (self.theElements.length + 1), { self with theElements := self.theElements ++ [element] })

end ListT

/-! ## The interval type used by `slice` -/

/-- Modelled from the spec: the class `Range` of `Range.hpp`, which is not among the
sources.  "given two integers `start < end`, exposes a lazy forward cursor yielding
successive integer positions in `[start, end)`". -/
structure Range where
  first : Int
  last : Int
  position : Int
  deriving DecidableEq, Repr

namespace Range

/-- Modelled from the spec: the constructor `Range( start, end )`; the forward cursor starts
at `start`. -/
def new (start end_ : Int) : Range := ⟨start, end_, start⟩

/-- Modelled from the spec: `begin()`, the lower bound of the interval. -/
def begin (r : Range) : Int := r.first

/-- Modelled from the spec: `end()`, the (excluded) upper bound of the interval. -/
def end_ (r : Range) : Int := r.last

/-- Modelled from the spec: `hasNext()`, whether a position of `[start, end)` is left. -/
def hasNext (r : Range) : Bool := r.position < r.last

/-- Modelled from the spec: `next()`, the current position; the cursor moves on by one. -/
def next (r : Range) : Int × Range := (r.position, { r with position := r.position + 1 })

end Range

namespace ListT

variable {T : Type}

/-- The loop `while ( range.hasNext() ) listSlice.add( theElements[ range.next() ] )` of
`slice( Range )`. -/
def sliceLoop (theElements : List T) : Nat → Range → ListT T → Result (ListT T)
  | 0, _, _ => .error .outOfFuel
  | fuel + 1, range, listSlice =>
    if range.hasNext then
      match vectorAt theElements range.next.1 with
      | .ok x => sliceLoop theElements fuel range.next.2 (add listSlice x).2
      | .error e => .error e
    else .ok listSlice

/-- The condition asserted by both overloads of `slice`:
`start >= 0 && start < end && end < theElements.size()`. -/
def sliceAssert (self : ListT T) (start end_ : Int) : Bool :=
  decide (start ≥ 0) && decide (start < end_) && decide (toSizeT end_ < self.theElements.length)

/-- The member `List<T> slice( Range range )`. -/
def sliceRange (self : ListT T) (range : Range) : Result (ListT T) :=
  if sliceAssert self range.begin range.end_ then
    sliceLoop self.theElements ((range.last - range.position).toNat + 1) range new
  else .error .assertion

/-- The member `List<T> slice( int start, int end )`. -/
def slice (self : ListT T) (start end_ : Int) : Result (ListT T) :=
  if sliceAssert self start end_ then
    sliceRange self (Range.new start end_)
  else .error .assertion

end ListT

/-! ## The random source and the standard algorithms -/

/-- Modelled from the spec: the class `RandomGenerator` of `RandomGenerator.hpp`, which is
not among the sources: a process-wide source of "uniform random integer in `[0, n)`".
`outputs k n` is what the `k`-th call returns when asked for a number below `n`;
`consulted` counts the calls made so far. -/
structure RandomGenerator where
  outputs : Nat → Int → Int
  consulted : Nat

/-- Modelled from the spec: `RandomGenerator::getInstance().getRandomInt( n )`. -/
def RandomGenerator.getRandomInt (g : RandomGenerator) (n : Int) : Int × RandomGenerator :=
  (g.outputs g.consulted n, { g with consulted := g.consulted + 1 })

/-- The call `std::shuffle( first, last, std::default_random_engine( rand() ) )`: which
rearrangement the engine produces is not fixed by the source, only that it is one. -/
structure StdShuffle (T : Type) where
  apply : List T → List T
  perm : ∀ l, (apply l).Perm l

/-- A stand-in for the call `std::sort( first, last, condition )`, whose algorithm is the
standard library's and not part of `List.hpp`: an insertion sort, in which an element is
placed before the first element that `condition` does not put before it.  Implementations
of `std::sort` differ from it, and from one another, in the order they give to elements
that `condition` does not tell apart.  The theorems below use of it only what all of them
share: the length of the result, and its value on a list of distinct keys. -/
def stdSort {T : Type} (condition : T → T → Bool) (v : List T) : List T :=
  v.insertionSort (fun a b => condition b a = false)

namespace ListT

variable {T : Type}

/-- The member `T operator[]( int index )`. -/
def index (self : ListT T) (i : Int) : Result T :=
  if toSizeT i < self.theElements.length then vectorAt self.theElements i
  else .error .assertion

/-- The member `T get( int index )`. -/
def get (self : ListT T) (i : Int) : Result T :=
  if toSizeT i < self.theElements.length then vectorAt self.theElements i
  else .error .assertion

/-- The member `List<T> add( List<T> toAdd )`; `toAdd` is passed by value.  Returns the
copy `*this` that the call evaluates to, and the receiver. -/
def addList (self : ListT T) (toAdd : ListT T) : Result (ListT T × ListT T) :=
  (forLoop (fun i => decide (i < toAdd.count))
      (fun i this =>
        match toAdd.index i with
        | .ok x => .ok (add this x).2
        | .error e => .error e)
      (toAdd.theElements.length + 1) 0 self).map (fun this => (this, this))

/-- The member `List<T> copy()`. -/
def copy (self : ListT T) : Result (ListT T) :=
  forLoop (fun i => decide (toSizeT i < self.theElements.length))
    (fun i newList =>
      match vectorAt self.theElements i with
      | .ok x => .ok (add newList x).2
      | .error e => .error e)
    (self.theElements.length + 1) 0 new

/-- The member `List<T> operator=( List<T> rhs )`: fills the local `copy` and returns it.
No statement of the body writes to a member of the receiver.  Returns the value the call
evaluates to, and the receiver. -/
def assign (self : ListT T) (rhs : ListT T) : Result (ListT T × ListT T) :=
  (forLoop (fun item => decide (item < rhs.count))
      (fun item copy =>
        match rhs.index item with
        | .ok x => .ok (add copy x).2
        | .error e => .error e)
      (rhs.theElements.length + 1) 0 new).map (fun copy => (copy, self))

/-- The member `List<T> filter( bool ( predicate( T ) ) )`. -/
def filter (self : ListT T) (predicate : T → Bool) : Result (ListT T) :=
  forLoop (fun item => decide (toSizeT item < self.theElements.length))
    (fun item filteredList =>
      match vectorAt self.theElements item with
      | .ok x => .ok (if predicate x then (add filteredList x).2 else filteredList)
      | .error e => .error e)
    (self.theElements.length + 1) 0 new

/-- The member `List<T> shuffle()`.  Returns the copy `*this` and the receiver. -/
def shuffle (self : ListT T) (engine : StdShuffle T) : ListT T × ListT T :=
  let this : ListT T := { cursor := 0, theElements := engine.apply self.theElements }
  (this, this)

/-- The member `List<T> reverse()`.  Returns the copy `*this` and the receiver. -/
def reverse (self : ListT T) : ListT T × ListT T :=
  let this : ListT T := { cursor := 0, theElements := self.theElements.reverse }
  (this, this)

/-- The member `List<T> reverseCopy()`: `copy().reverse()`, the value returned by
`reverse` on the temporary. -/
def reverseCopy (self : ListT T) : Result (ListT T) :=
  (self.copy).map (fun tmp => (reverse tmp).1)

/-- The member `List<T> sort( bool( condition( T, T ) ) )`; `cursor` is not assigned.
Returns the copy `*this` and the receiver. -/
def sort (self : ListT T) (condition : T → T → Bool) : ListT T × ListT T :=
  let this : ListT T := { self with theElements := stdSort condition self.theElements }
  (this, this)

/-- The member `List<T> randomGet( int howMany )`; the loop state is the list under
construction and the random source. -/
def randomGet (self : ListT T) (howMany : Int) (rng : RandomGenerator) :
    Result (ListT T × RandomGenerator) :=
  let howMany := if howMany > self.count then self.count else howMany
  forLoop (fun i => decide (i < howMany))
    (fun _ st =>
      let r := st.2.getRandomInt self.count
      match vectorAt self.theElements r.1 with
      | .ok x => .ok ((add st.1 x).2, r.2)
      | .error e => .error e)
    (howMany.toNat + 1) 0 (new, rng)

/-- The member `bool add( T element, int position )`. -/
def addAt (self : ListT T) (element : T) (position : Int) : Bool × ListT T :=
  if position ≥ 0 ∧ toSizeT position < self.theElements.length then
    (true, { self with theElements := self.theElements.set (toSizeT position) element })
  else (false, self)

/-- The member `bool remove( int position )`. -/
def remove (self : ListT T) (position : Int) : Result (Bool × ListT T) :=
  if toSizeT position < self.theElements.length then
    if position ≥ 0 ∧ toSizeT position < self.theElements.length then
      .ok (true, { cursor := 0, theElements := self.theElements.eraseIdx position.toNat })
    else .ok (false, { self with cursor := 0 })
  else .error .assertion

/-- The member `void clear()`; the `assert` on the emptied vector cannot fail. -/
def clear (_self : ListT T) : ListT T := { cursor := 0, theElements := [] }

/-- The member `bool isEmpty()`. -/
def isEmpty (self : ListT T) : Bool := self.theElements.length == 0

/-- The member `int current()`. -/
def current (self : ListT T) : Int := self.cursor

/-- The member `T begin()`. -/
def begin (self : ListT T) : Result T := vectorAt self.theElements 0

/-- The member `T end()`. -/
def end_ (self : ListT T) : Result T := vectorAt self.theElements (toInt self.theElements.length)

end ListT

namespace ListT

variable {T : Type}

/-- The constant `static const int notFound = -1`. -/
def notFound : Int := -1

/-- The loop of `indexOf`, which returns from inside its body. -/
def indexOfLoop [DecidableEq T] (theElements : List T) (element : T) : Nat → Int → Result Int
  | 0, _ => .error .outOfFuel
  | fuel + 1, i =>
    if toSizeT i < theElements.length then
      match vectorAt theElements i with
      | .ok x => if x = element then .ok i else indexOfLoop theElements element fuel (wrapInt (i + 1))
      | .error e => .error e
    else .ok notFound

/-- The member `int indexOf( T element )`. -/
def indexOf [DecidableEq T] (self : ListT T) (element : T) : Result Int :=
  indexOfLoop self.theElements element (self.theElements.length + 1) 0

/-- The loop of `contains`, which returns from inside its body. -/
def containsLoop [DecidableEq T] (theElements : List T) (element : T) : Nat → Int → Result Bool
  | 0, _ => .error .outOfFuel
  | fuel + 1, i =>
    if toSizeT i < theElements.length then
      match vectorAt theElements i with
      | .ok x => if x = element then .ok true else containsLoop theElements element fuel (wrapInt (i + 1))
      | .error e => .error e
    else .ok false

/-- The member `bool contains( T element )`. -/
def contains [DecidableEq T] (self : ListT T) (element : T) : Result Bool :=
  containsLoop self.theElements element (self.theElements.length + 1) 0

/-- The member `int countIf( bool ( predicate( T ) ) )`; `++retVal` is an `int` increment. -/
def countIf (self : ListT T) (predicate : T → Bool) : Result Int :=
  forLoop (fun item => decide (toSizeT item < self.theElements.length))
    (fun item retVal =>
      match vectorAt self.theElements item with
      | .ok x => .ok (if predicate x then wrapInt (retVal + 1) else retVal)
      | .error e => .error e)
    (self.theElements.length + 1) 0 0

/-- The member `int accumulate( int ( counter( T ) ) )`. -/
def accumulate (self : ListT T) (counter : T → Int) : Result Int :=
  forLoop (fun item => decide (toSizeT item < self.theElements.length))
    (fun item retVal =>
      match vectorAt self.theElements item with
      | .ok x => .ok (wrapInt (retVal + counter x))
      | .error e => .error e)
    (self.theElements.length + 1) 0 0

/-- The member `void forEach( void doSomething( T ) )`; what `doSomething` acts on is the
state `W` outside the list. -/
def forEach {W : Type} (self : ListT T) (doSomething : T → W → W) (world : W) : Result W :=
  forLoop (fun item => decide (toSizeT item < self.theElements.length))
    (fun item w =>
      match vectorAt self.theElements item with
      | .ok x => .ok (doSomething x w)
      | .error e => .error e)
    (self.theElements.length + 1) 0 world

/-- The loop a client runs over the cursor: `while ( l.hasNext() ) visit( l.next() )`.
Collects what the successive calls of `next()` return, next to the final list. -/
def iterate : Nat → ListT T → Result (List (Result T) × ListT T)
  | 0, _ => .error .outOfFuel
  | fuel + 1, l =>
    if l.hasNext then
      match iterate fuel l.next.2 with
      | .ok (visited, l') => .ok (l.next.1 :: visited, l')
      | .error e => .error e
    else .ok ([], l)

end ListT

/-- The expression `S.reverse().reverse()`: the first call is made on `S`, the second on
the `List<T>` value that the first call returns.  Gives the value of the whole expression
and `S` after it. -/
def ListT.reverseReverse {T : Type} (S : ListT T) : ListT T × ListT T :=
  let first := S.reverse
  let second := first.1.reverse
  (second.1, first.2)

/-! ## The public interface as a transition system -/

/-- The cursor range invariant of the data model: `0 <= cursor <= count()`. -/
def ListT.cursorInv {T : Type} (self : ListT T) : Prop :=
  0 ≤ self.cursor ∧ self.cursor ≤ self.count

instance {T : Type} (self : ListT T) : Decidable self.cursorInv :=
  inferInstanceAs (Decidable (0 ≤ self.cursor ∧ self.cursor ≤ self.count))

/-- A call of a public member function of `List<T>` with its arguments (`randomisedCopy`
is left out: its body calls `randomise`, which the class does not declare).  `W` is the
state that the action of `forEach` works on. -/
inductive Op (T W : Type) where
  | resetCursor (position : Int)
  | hasNext
  | next
  | slice (start end_ : Int)
  | sliceRange (range : Range)
  | addList (toAdd : ListT T)
  | copy
  | assign (rhs : ListT T)
  | reverseCopy
  | filter (predicate : T → Bool)
  | shuffle (engine : StdShuffle T)
  | reverse
  | get (i : Int)
  | randomGet (howMany : Int) (rng : RandomGenerator)
  | index (i : Int)
  | indexOf (element : T)
  | add (element : T)
  | addAt (element : T) (position : Int)
  | remove (position : Int)
  | contains (element : T)
  | clear
  | isEmpty
  | current
  | begin
  | end_
  | sort (condition : T → T → Bool)
  | countIf (predicate : T → Bool)
  | accumulate (counter : T → Int)
  | forEach (doSomething : T → W → W) (world : W)
  | count

/-- The effect of a call on the lists involved: the receiver after the call and, for a
cumulative operation, the list the call evaluates to.  A member function whose body
writes to no member leaves the receiver as it was. -/
def Op.run {T W : Type} [DecidableEq T] : Op T W → ListT T → Result (ListT T × Option (ListT T))
  | .resetCursor position, S => .ok (S.resetCursor position, none)
  | .hasNext, S => .ok (S, none)
  | .next, S => (S.next.1).map (fun _ => (S.next.2, none))
  | .slice start stop, S => (S.slice start stop).map (fun r => (S, some r))
  | .sliceRange range, S => (S.sliceRange range).map (fun r => (S, some r))
  | .addList toAdd, S => (S.addList toAdd).map (fun r => (r.2, some r.1))
  | .copy, S => (S.copy).map (fun r => (S, some r))
  | .assign rhs, S => (S.assign rhs).map (fun r => (r.2, some r.1))
  | .reverseCopy, S => (S.reverseCopy).map (fun r => (S, some r))
  | .filter predicate, S => (S.filter predicate).map (fun r => (S, some r))
  | .shuffle engine, S => .ok ((S.shuffle engine).2, some (S.shuffle engine).1)
  | .reverse, S => .ok (S.reverse.2, some S.reverse.1)
  | .get i, S => (S.get i).map (fun _ => (S, none))
  | .randomGet howMany rng, S => (S.randomGet howMany rng).map (fun r => (S, some r.1))
  | .index i, S => (S.index i).map (fun _ => (S, none))
  | .indexOf element, S => (S.indexOf element).map (fun _ => (S, none))
  | .add element, S => .ok ((S.add element).2, none)
  | .addAt element position, S => .ok ((S.addAt element position).2, none)
  | .remove position, S => (S.remove position).map (fun r => (r.2, none))
  | .contains element, S => (S.contains element).map (fun _ => (S, none))
  | .clear, S => .ok (S.clear, none)
  | .isEmpty, S => .ok (S, none)
  | .current, S => .ok (S, none)
  | .begin, S => (S.begin).map (fun _ => (S, none))
  | .end_, S => (S.end_).map (fun _ => (S, none))
  | .sort condition, S => .ok ((S.sort condition).2, some (S.sort condition).1)
  | .countIf predicate, S => (S.countIf predicate).map (fun _ => (S, none))
  | .accumulate counter, S => (S.accumulate counter).map (fun _ => (S, none))
  | .forEach doSomething world, S => (S.forEach doSomething world).map (fun _ => (S, none))
  | .count, S => .ok (S, none)

/-- The two calls that set the cursor from their input without a check, with the
condition under which they keep it in range: `resetCursor( position )` for a position in
`[0, count()]`, and `next()` while `hasNext()` holds. -/
def Op.keepsCursorInRange {T W : Type} : Op T W → ListT T → Prop
  | .resetCursor position, S => 0 ≤ position ∧ position ≤ S.count
  | .next, S => S.hasNext = true
  | _, _ => True

/-! ## Conditions on the arguments, and a client fragment -/

/-- A random source that keeps its contract: asked for a number below `n > 0`, every call
answers with a value of `[0, n)`. -/
def RandomGenerator.inRange (g : RandomGenerator) : Prop :=
  ∀ (k : Nat) (n : Int), 0 < n → 0 ≤ g.outputs k n ∧ g.outputs k n < n

/-- The fragment `List<T> c = S.copy(); c.op( … );`: a copy is taken and a member function
is called on the copy.  Gives `S` and `c` afterwards. -/
def ListT.copyThen {T W : Type} [DecidableEq T] (S : ListT T) (op : Op T W) :
    Result (ListT T × ListT T) :=
  match Op.run (Op.copy : Op T W) S with
  | .ok (S', some c) =>
    (match op.run c with
     | .ok (c', _) => .ok (S', c')
     | .error e => .error e)
  | .ok (_, none) => .error .outOfFuel
  | .error e => .error e

/-! ## Arithmetic of the conversions -/

theorem wrapInt_of_isInt {x : Int} (h : isInt x) : wrapInt x = x := by
  unfold isInt INT_MIN INT_MAX at h
  unfold wrapInt
  omega

theorem toSizeT_natCast {n : Nat} (h : (n : Int) ≤ INT_MAX) : toSizeT (n : Int) = n := by
  unfold INT_MAX at h
  unfold toSizeT
  omega

theorem toSizeT_of_nonneg {x : Int} (h0 : 0 ≤ x) (h : x ≤ INT_MAX) : toSizeT x = x.toNat := by
  unfold INT_MAX at h
  unfold toSizeT
  omega

theorem toInt_of_le {n : Nat} (h : (n : Int) ≤ INT_MAX) : toInt n = n := by
  unfold INT_MAX at h
  unfold toInt wrapInt
  omega

theorem toInt_le (n : Nat) : toInt n ≤ n := by
  unfold toInt wrapInt
  omega

theorem toInt_le_INT_MAX (n : Nat) : toInt n ≤ INT_MAX := by
  unfold toInt wrapInt INT_MAX
  omega

/-! ## Loops -/

theorem vectorAt_natCast {T : Type} (v : List T) (k : Nat) (hk : k < v.length)
    (hmax : (k : Int) ≤ INT_MAX) : vectorAt v (k : Int) = .ok (v[k]) := by
  simp [vectorAt, toSizeT_natCast hmax, List.getElem?_eq_getElem hk]

theorem vectorAt_of_fits {T : Type} (v : List T) (k : Nat) (hk : k < v.length)
    (hmax : (v.length : Int) ≤ INT_MAX) : vectorAt v (k : Int) = .ok (v[k]) :=
  vectorAt_natCast v k hk (by have : (k : Int) < (v.length : Int) := by exact_mod_cast hk
                              omega)

/-- A `for` loop that visits the indices `k, k+1, …` of a vector of at most `INT_MAX`
elements and whose body folds the element at the index into the loop state visits every
remaining element once, in order. -/
theorem forLoop_elems {T σ : Type} (elems : List T) (f : σ → T → σ)
    (cond : Int → Bool) (body : Int → σ → Result σ)
    (hmax : (elems.length : Int) ≤ INT_MAX)
    (hcond : ∀ k : Nat, k ≤ elems.length → cond (k : Int) = decide (k < elems.length))
    (hbody : ∀ (k : Nat) (hk : k < elems.length) (s : σ), body (k : Int) s = .ok (f s elems[k])) :
    ∀ (d k fuel : Nat) (s : σ), k + d = elems.length → d < fuel →
      forLoop cond body fuel (k : Int) s = .ok ((elems.drop k).foldl f s) := by
  intro d
  induction d with
  | zero =>
    intro k fuel s hk hf
    obtain ⟨fuel, rfl⟩ : ∃ m, fuel = m + 1 := ⟨fuel - 1, by omega⟩
    have hk' : k = elems.length := by omega
    subst hk'
    simp [forLoop, hcond]
  | succ d ih =>
    intro k fuel s hk hf
    obtain ⟨fuel, rfl⟩ : ∃ m, fuel = m + 1 := ⟨fuel - 1, by omega⟩
    have hlt : k < elems.length := by omega
    have hwrap : wrapInt ((k : Int) + 1) = ((k + 1 : Nat) : Int) := by
      rw [wrapInt_of_isInt]
      · push_cast; rfl
      · unfold isInt INT_MIN
        unfold INT_MAX at hmax ⊢
        omega
    rw [forLoop, hcond k (by omega), decide_eq_true hlt, if_pos rfl, hbody k hlt s]
    simp only [hwrap]
    rw [ih (k + 1) fuel _ (by omega) (by omega), List.drop_eq_getElem_cons hlt]
    rfl

theorem foldl_add {T : Type} (l : List T) (s : ListT T) :
    l.foldl (fun acc x => (ListT.add acc x).2) s = ⟨s.cursor, s.theElements ++ l⟩ := by
  induction l generalizing s with
  | nil => simp
  | cons x l ih =>
    rw [List.foldl_cons, ih]
    simp [ListT.add]

theorem foldl_add_if {T : Type} (p : T → Bool) (l : List T) (s : ListT T) :
    l.foldl (fun acc x => if p x then (ListT.add acc x).2 else acc) s
      = ⟨s.cursor, s.theElements ++ l.filter p⟩ := by
  induction l generalizing s with
  | nil => simp
  | cons x l ih =>
    rw [List.foldl_cons, ih]
    by_cases hx : p x = true
    · simp [ListT.add, hx]
    · simp [hx]

theorem sliceLoop_eq {T : Type} (elems : List T) (first : Int) (n : Nat)
    (hn : n ≤ elems.length) (hmax : (n : Int) ≤ INT_MAX) :
    ∀ (d k fuel : Nat) (acc : ListT T), k + d = n → d < fuel →
      ListT.sliceLoop elems fuel ⟨first, (n : Int), (k : Int)⟩ acc
        = .ok ⟨acc.cursor, acc.theElements ++ (elems.drop k).take d⟩ := by
  intro d
  induction d with
  | zero =>
    intro k fuel acc hk hf
    obtain ⟨fuel, rfl⟩ : ∃ m, fuel = m + 1 := ⟨fuel - 1, by omega⟩
    have hk' : k = n := by omega
    subst hk'
    simp [ListT.sliceLoop, Range.hasNext]
  | succ d ih =>
    intro k fuel acc hk hf
    obtain ⟨fuel, rfl⟩ : ∃ m, fuel = m + 1 := ⟨fuel - 1, by omega⟩
    have hlt : k < elems.length := by omega
    have hkn : (k : Int) < (n : Int) := by exact_mod_cast (by omega : k < n)
    have hnext : ((k : Int) + 1) = ((k + 1 : Nat) : Int) := by push_cast; rfl
    rw [ListT.sliceLoop]
    have hkmax : (k : Int) ≤ INT_MAX := by omega
    simp only [Range.hasNext, Range.next, hkn, decide_True, if_true,
      vectorAt_natCast elems k hlt hkmax, hnext]
    have hd : (elems.drop k).take (d + 1) = elems[k] :: (elems.drop (k + 1)).take d := by
      rw [List.drop_eq_getElem_cons hlt, List.take_succ_cons]
    rw [ih (k + 1) fuel _ (by omega) (by omega), hd]
    simp [ListT.add]

theorem foldl_count_if {T : Type} (p : T → Bool) (l : List T) :
    ∀ r : Nat, (r : Int) + (l.length : Int) ≤ INT_MAX →
      l.foldl (fun acc x => if p x then wrapInt (acc + 1) else acc) (r : Int)
        = (r : Int) + ((l.filter p).length : Int) := by
  induction l with
  | nil => intro r _; simp
  | cons x l ih =>
    intro r hr
    rw [List.foldl_cons]
    simp only [List.length_cons, Nat.cast_add, Nat.cast_one] at hr
    by_cases hx : p x = true
    · have hw : wrapInt ((r : Int) + 1) = ((r + 1 : Nat) : Int) := by
        rw [wrapInt_of_isInt]
        · push_cast; rfl
        · unfold isInt INT_MIN
          unfold INT_MAX at hr ⊢
          omega
      rw [if_pos hx, hw, ih (r + 1) (by push_cast; omega), List.filter_cons_of_pos hx]
      simp only [List.length_cons]
      push_cast
      omega
    · rw [if_neg hx, ih r (by omega), List.filter_cons_of_neg hx]

/-- The loops `for ( int i = 0; i < theElements.size(); i++ )` of the class: on a list
that fits `int` the loop folds its body over all elements, in order. -/
theorem forLoop_size {T σ : Type} (S : ListT T) (hfit : S.fitsInt) (f : σ → T → σ)
    (body : Int → σ → Result σ)
    (hbody : ∀ (k : Nat) (hk : k < S.theElements.length) (s : σ),
      body (k : Int) s = .ok (f s S.theElements[k])) (s : σ) :
    forLoop (fun i => decide (toSizeT i < S.theElements.length)) body
      (S.theElements.length + 1) 0 s = .ok (S.theElements.foldl f s) := by
  have h := forLoop_elems S.theElements f
    (fun i => decide (toSizeT i < S.theElements.length)) body hfit
    (fun k hk => by
      have hk' : (k : Int) ≤ INT_MAX := by
        have : (k : Int) ≤ (S.theElements.length : Int) := by exact_mod_cast hk
        unfold ListT.fitsInt at hfit
        omega
      simp [toSizeT_natCast hk'])
    hbody S.theElements.length 0 (S.theElements.length + 1) s (by omega) (by omega)
  simpa using h

/-! ## Slicing -/

namespace ListT

variable {T : Type}

/-- C1, evaluated on the code: on the three-element list `[1, 2, 3]` the full-range slice
`slice( 0, 3 )` and the suffix slice `slice( 1, 3 )` both stop at the assertion
`end < theElements.size()`; no sequence is returned. The ranges ending one element
earlier are accepted. -/
theorem slice_end_eq_length_fails :
    slice (⟨0, [1, 2, 3]⟩ : ListT Nat) 0 3 = .error .assertion ∧
    slice (⟨0, [1, 2, 3]⟩ : ListT Nat) 1 3 = .error .assertion ∧
    sliceRange (⟨0, [1, 2, 3]⟩ : ListT Nat) (Range.new 0 3) = .error .assertion ∧
    slice (⟨0, [1, 2, 3]⟩ : ListT Nat) 0 2 = .ok ⟨0, [1, 2]⟩ := by
  decide

/-- C2: when the assertion of `slice( start, end )` passes, the call returns a list that
holds exactly the elements at the indices `start, start+1, …, end-1` of the receiver, in
that order, and whose `count()` is `end - start`. -/
theorem slice_returns_half_open_range (S : ListT T) (start end_ : Int) (hend : isInt end_)
    (hassert : S.sliceAssert start end_ = true) :
    ∃ r : ListT T, S.slice start end_ = .ok r ∧
      r.theElements = (S.theElements.drop start.toNat).take (end_ - start).toNat ∧
      (∀ i : Nat, i < (end_ - start).toNat →
        r.theElements[i]? = S.theElements[start.toNat + i]?) ∧
      r.count = end_ - start := by
  have hassert' := hassert
  simp only [sliceAssert, Bool.and_eq_true, decide_eq_true_eq] at hassert'
  obtain ⟨⟨h0, hlt⟩, hsz⟩ := hassert'
  have hendmax : end_ ≤ INT_MAX := hend.2
  rw [toSizeT_of_nonneg (by omega) hendmax] at hsz
  obtain ⟨k, rfl⟩ : ∃ k : Nat, start = (k : Int) := ⟨start.toNat, by omega⟩
  obtain ⟨n, rfl⟩ : ∃ n : Nat, end_ = (n : Int) := ⟨end_.toNat, by omega⟩
  have hkn : k < n := by exact_mod_cast hlt
  have hn : n < S.theElements.length := by simpa using hsz
  have hloop := sliceLoop_eq S.theElements (k : Int) n (by omega) hendmax (n - k) k
    (((n : Int) - (k : Int)).toNat + 1) new (by omega) (by omega)
  have hd : ((n : Int) - (k : Int)).toNat = n - k := by omega
  refine ⟨⟨0, (S.theElements.drop k).take (n - k)⟩, ?_, ?_, ?_, ?_⟩
  · simp only [slice, sliceRange, hassert, Range.new, Range.begin, Range.end_, if_true]
    rw [hloop]
    simp [new]
  · simp [hd]
  · intro i hi
    rw [hd] at hi
    simp [List.getElem?_take, hi, List.getElem?_drop]
  · have hlen : ((S.theElements.drop k).take (n - k)).length = n - k := by
      simp only [List.length_take, List.length_drop]
      omega
    simp only [count, hlen]
    rw [toInt_of_le (by unfold INT_MAX at hendmax ⊢; omega)]
    omega

/-- C2 at `[1, 2, 3, 4]`, `slice( 1, 3 )`. -/
theorem slice_returns_half_open_range_witness :
    isInt 3 ∧ sliceAssert (⟨0, [1, 2, 3, 4]⟩ : ListT Nat) 1 3 = true ∧
    ∃ r : ListT Nat, slice (⟨0, [1, 2, 3, 4]⟩ : ListT Nat) 1 3 = .ok r ∧
      r.theElements = (([1, 2, 3, 4] : List Nat).drop (1 : Int).toNat).take ((3 : Int) - 1).toNat ∧
      (∀ i : Nat, i < ((3 : Int) - 1).toNat →
        r.theElements[i]? = ([1, 2, 3, 4] : List Nat)[(1 : Int).toNat + i]?) ∧
      r.count = 3 - 1 :=
  ⟨by decide, by decide,
    slice_returns_half_open_range ⟨0, [1, 2, 3, 4]⟩ 1 3 (by decide) (by decide)⟩

end ListT

/-! ## Filtering -/

namespace ListT

variable {T : Type}

theorem filter_eq (S : ListT T) (p : T → Bool) (hfit : S.fitsInt) :
    S.filter p = .ok ⟨0, S.theElements.filter p⟩ := by
  unfold filter
  rw [forLoop_size S hfit (fun acc x => if p x then (add acc x).2 else acc)]
  · rw [foldl_add_if]
    simp [new]
  · intro k hk s
    rw [vectorAt_of_fits _ k hk hfit]

theorem countIf_eq (S : ListT T) (p : T → Bool) (hfit : S.fitsInt) :
    S.countIf p = .ok ((S.theElements.filter p).length : Int) := by
  unfold countIf
  rw [forLoop_size S hfit (fun acc x => if p x then wrapInt (acc + 1) else acc)]
  · have h := foldl_count_if p S.theElements 0 (by simpa using hfit)
    simp only [Nat.cast_zero] at h
    rw [h, zero_add]
  · intro k hk s
    rw [vectorAt_of_fits _ k hk hfit]

/-- C3: `filter( p )` returns exactly the elements of the receiver that satisfy `p`, in
their original relative order: every returned element satisfies `p`, no satisfying element
is dropped, and `filter( p ).count()` is the value of `countIf( p )`. -/
theorem filter_keeps_exactly_satisfying (S : ListT T) (p : T → Bool) (hfit : S.fitsInt) :
    ∃ r : ListT T, S.filter p = .ok r ∧
      r.theElements = S.theElements.filter p ∧
      r.theElements.Sublist S.theElements ∧
      (∀ x ∈ r.theElements, p x = true) ∧
      (∀ x ∈ S.theElements, p x = true → x ∈ r.theElements) ∧
      S.countIf p = .ok r.count := by
  refine ⟨⟨0, S.theElements.filter p⟩, filter_eq S p hfit, rfl, List.filter_sublist _, ?_, ?_, ?_⟩
  · intro x hx
    exact (List.mem_filter.mp hx).2
  · intro x hx hp
    exact List.mem_filter.mpr ⟨hx, hp⟩
  · rw [countIf_eq S p hfit]
    have hle : (S.theElements.filter p).length ≤ S.theElements.length := List.length_filter_le _ _
    have hle' : ((S.theElements.filter p).length : Int) ≤ INT_MAX := by
      have : ((S.theElements.filter p).length : Int) ≤ (S.theElements.length : Int) := by
        exact_mod_cast hle
      unfold fitsInt at hfit
      omega
    simp only [count]
    rw [toInt_of_le hle']

/-- C3 at `[3, 2, 1]` with the predicate `x > 1`. -/
theorem filter_keeps_exactly_satisfying_witness :
    (⟨0, [3, 2, 1]⟩ : ListT Nat).fitsInt ∧
    ∃ r : ListT Nat, filter (⟨0, [3, 2, 1]⟩ : ListT Nat) (fun x => decide (x > 1)) = .ok r ∧
      r.theElements = ([3, 2, 1] : List Nat).filter (fun x => decide (x > 1)) ∧
      r.theElements.Sublist [3, 2, 1] ∧
      (∀ x ∈ r.theElements, decide (x > 1) = true) ∧
      (∀ x ∈ ([3, 2, 1] : List Nat), decide (x > 1) = true → x ∈ r.theElements) ∧
      countIf (⟨0, [3, 2, 1]⟩ : ListT Nat) (fun x => decide (x > 1)) = .ok r.count :=
  ⟨by decide, filter_keeps_exactly_satisfying ⟨0, [3, 2, 1]⟩ (fun x => decide (x > 1)) (by decide)⟩

end ListT

/-! ## Removal -/

namespace ListT

variable {T : Type}

/-- C4, evaluated on the code: on `[1, 2, 3]` the out-of-range calls `remove( 3 )`,
`remove( 7 )` and `remove( -1 )` stop at `assert( position < theElements.size() )`; the
value `false` is not returned. -/
theorem remove_out_of_range_asserts :
    remove (⟨0, [1, 2, 3]⟩ : ListT Nat) 3 = .error .assertion ∧
    remove (⟨0, [1, 2, 3]⟩ : ListT Nat) 7 = .error .assertion ∧
    remove (⟨0, [1, 2, 3]⟩ : ListT Nat) (-1) = .error .assertion ∧
    remove (new : ListT Nat) 0 = .error .assertion := by
  decide

/-- C5: for `0 <= position < count()`, `remove( position )` returns `true`; afterwards the
receiver holds the former elements before `position` followed by the former elements
after it, `count()` is one less, and the cursor is `0` whatever it was. -/
theorem remove_in_range (S : ListT T) (position : Int) (h0 : 0 ≤ position)
    (hlt : position < S.count) :
    S.remove position = .ok (true,
      ⟨0, S.theElements.take position.toNat ++ S.theElements.drop (position.toNat + 1)⟩) ∧
    (⟨0, S.theElements.take position.toNat ++ S.theElements.drop (position.toNat + 1)⟩ :
      ListT T).count = S.count - 1 := by
  have hmax : position ≤ INT_MAX := by
    have := toInt_le_INT_MAX S.theElements.length
    unfold count at hlt
    omega
  have hlen : position < (S.theElements.length : Int) := by
    have := toInt_le S.theElements.length
    unfold count at hlt
    omega
  obtain ⟨k, rfl⟩ : ∃ k : Nat, position = (k : Int) := ⟨position.toNat, by omega⟩
  have hk : k < S.theElements.length := by exact_mod_cast hlen
  constructor
  · simp only [remove, toSizeT_natCast hmax, hk, h0, ge_iff_le, and_self, if_true,
      Int.toNat_ofNat, List.eraseIdx_eq_take_drop_succ]
  · simp only [count, Int.toNat_ofNat, List.length_append, List.length_take, List.length_drop]
    have hl : min k S.theElements.length + (S.theElements.length - (k + 1))
        = S.theElements.length - 1 := by omega
    rw [hl]
    unfold count at hlt
    obtain ⟨m, hm⟩ : ∃ m, S.theElements.length = m + 1 := ⟨S.theElements.length - 1, by omega⟩
    rw [hm] at hlt ⊢
    simp only [Nat.add_sub_cancel]
    unfold toInt wrapInt at hlt ⊢
    push_cast at hlt ⊢
    omega

/-- C5 at the list `[3, 2, 1]` with the cursor at `2`, `remove( 0 )`. -/
theorem remove_in_range_witness :
    (0 : Int) ≤ 0 ∧ (0 : Int) < (⟨2, [3, 2, 1]⟩ : ListT Nat).count ∧
    remove (⟨2, [3, 2, 1]⟩ : ListT Nat) 0 = .ok (true, ⟨0, [2, 1]⟩) :=
  ⟨by decide, by decide, (remove_in_range ⟨2, [3, 2, 1]⟩ 0 (by decide) (by decide)).1⟩

end ListT

/-! ## The cursor -/

theorem Result.map_eq_ok {α β : Type} {f : α → β} {x : Result α} {y : β}
    (h : x.map f = .ok y) : ∃ a, x = .ok a ∧ f a = y := by
  cases x with
  | ok a => exact ⟨a, rfl, by simpa [Result.map] using h⟩
  | error e => simp [Result.map] at h

/-- A property of the loop state that every iteration of the body keeps holds when the
`for` loop is left. -/
theorem forLoop_invariant {σ : Type} (P : σ → Prop) (cond : Int → Bool)
    (body : Int → σ → Result σ)
    (hstep : ∀ i s s', P s → body i s = .ok s' → P s') :
    ∀ (fuel : Nat) (i : Int) (s s' : σ), P s → forLoop cond body fuel i s = .ok s' → P s' := by
  intro fuel
  induction fuel with
  | zero => intro i s s' _ h; simp [forLoop] at h
  | succ fuel ih =>
    intro i s s' hP h
    rw [forLoop] at h
    by_cases hc : cond i = true
    · rw [if_pos hc] at h
      cases hb : body i s with
      | ok t =>
        rw [hb] at h
        exact ih _ t s' (hstep i s t hP hb) h
      | error e => rw [hb] at h; simp at h
    · rw [if_neg hc] at h
      cases h
      exact hP

theorem sliceLoop_cursor {T : Type} (elems : List T) :
    ∀ (fuel : Nat) (range : Range) (acc r : ListT T),
      ListT.sliceLoop elems fuel range acc = .ok r → r.cursor = acc.cursor := by
  intro fuel
  induction fuel with
  | zero => intro range acc r h; simp [ListT.sliceLoop] at h
  | succ fuel ih =>
    intro range acc r h
    rw [ListT.sliceLoop] at h
    by_cases hc : range.hasNext = true
    · rw [if_pos hc] at h
      cases hb : vectorAt elems range.next.1 with
      | ok x =>
        rw [hb] at h
        simpa [ListT.add] using ih _ _ r h
      | error e => rw [hb] at h; simp at h
    · rw [if_neg hc] at h
      cases h
      rfl

namespace ListT

variable {T : Type}

theorem add_step_cursor (c : Int) (src : Int → Result T) (i : Int) (s s' : ListT T)
    (hs : s.cursor = c)
    (h : (match src i with
          | .ok x => Result.ok (add s x).2
          | .error e => .error e) = .ok s') : s'.cursor = c := by
  cases hx : src i with
  | ok x => rw [hx] at h; cases h; simpa [add] using hs
  | error e => rw [hx] at h; simp at h

theorem sliceRange_cursor {S r : ListT T} {range : Range} (h : S.sliceRange range = .ok r) :
    r.cursor = 0 := by
  unfold sliceRange at h
  split at h
  · exact sliceLoop_cursor _ _ _ _ _ h
  · simp at h

theorem slice_cursor {S r : ListT T} {start stop : Int} (h : S.slice start stop = .ok r) :
    r.cursor = 0 := by
  unfold slice at h
  split at h
  · exact sliceRange_cursor h
  · simp at h

theorem copy_cursor {S r : ListT T} (h : S.copy = .ok r) : r.cursor = 0 :=
  forLoop_invariant (fun s => s.cursor = 0) _ _
    (fun i s s' hs hb => add_step_cursor 0 (vectorAt S.theElements) i s s' hs hb) _ _ _ _ rfl h

theorem filter_cursor {S r : ListT T} {p : T → Bool} (h : S.filter p = .ok r) :
    r.cursor = 0 := by
  refine forLoop_invariant (fun s => s.cursor = 0) _ _ ?_ _ _ _ _ rfl h
  intro i s s' hs hb
  cases hx : vectorAt S.theElements i with
  | ok x =>
    simp only [hx] at hb
    cases hb
    by_cases hp : p x = true
    · simpa [hp, add] using hs
    · simpa [hp] using hs
  | error e => simp [hx] at hb

theorem assign_result {S rhs : ListT T} {r : ListT T × ListT T} (h : S.assign rhs = .ok r) :
    r.1.cursor = 0 ∧ r.2 = S := by
  obtain ⟨copy, hloop, rfl⟩ := Result.map_eq_ok h
  exact ⟨forLoop_invariant (fun s => s.cursor = 0) _ _
    (fun i s s' hs hb => add_step_cursor 0 rhs.index i s s' hs hb) _ _ _ _ rfl hloop, rfl⟩

theorem addList_result {S toAdd : ListT T} {r : ListT T × ListT T}
    (h : S.addList toAdd = .ok r) :
    r.1 = r.2 ∧ r.2.cursor = S.cursor ∧ S.theElements.length ≤ r.2.theElements.length := by
  obtain ⟨this, hloop, rfl⟩ := Result.map_eq_ok h
  refine ⟨rfl, ?_⟩
  refine forLoop_invariant
    (fun s => s.cursor = S.cursor ∧ S.theElements.length ≤ s.theElements.length) _ _ ?_
    _ _ _ _ ⟨rfl, le_refl _⟩ hloop
  intro i s s' hs hb
  cases hx : toAdd.index i with
  | ok x =>
    simp only [hx] at hb
    cases hb
    refine ⟨by simpa [add] using hs.1, ?_⟩
    have := hs.2
    simp only [add, List.length_append, List.length_singleton]
    omega
  | error e => simp [hx] at hb

theorem randomGet_cursor {S : ListT T} {howMany : Int} {rng : RandomGenerator}
    {r : ListT T × RandomGenerator} (h : S.randomGet howMany rng = .ok r) : r.1.cursor = 0 := by
  refine forLoop_invariant (fun st : ListT T × RandomGenerator => st.1.cursor = 0) _ _ ?_
    _ _ _ _ rfl h
  intro i s s' hs hb
  cases hx : vectorAt S.theElements (s.2.getRandomInt S.count).1 with
  | ok x =>
    simp only [hx] at hb
    cases hb
    simpa [add] using hs
  | error e => simp [hx] at hb

theorem cursorInv_of_cursor_zero {r : ListT T} (hc : r.cursor = 0) (hf : r.fitsInt) :
    r.cursorInv := by
  unfold cursorInv count
  rw [hc, toInt_of_le hf]
  omega

theorem cursorInv_of_le {S S' : ListT T} (hinv : S.cursorInv) (hc : S'.cursor = S.cursor)
    (hlen : S.theElements.length ≤ S'.theElements.length) (hf : S'.fitsInt) :
    S'.cursorInv := by
  unfold cursorInv count at hinv ⊢
  have := toInt_le S.theElements.length
  have hl : (S.theElements.length : Int) ≤ (S'.theElements.length : Int) := by exact_mod_cast hlen
  rw [hc, toInt_of_le hf]
  omega

end ListT

namespace ListT

variable {T W : Type}

theorem new_cursorInv : (new : ListT T).cursorInv := by
  unfold cursorInv count new toInt wrapInt
  simp

theorem ret_none_cursorInv : ∀ r ∈ (none : Option (ListT T)), r.cursorInv := by
  intro r hr
  cases hr

theorem ret_some_cursorInv {x : ListT T} (hx : x.cursorInv) :
    ∀ r ∈ some x, r.cursorInv := by
  intro r hr
  cases hr
  exact hx

theorem next_cursorInv {S : ListT T} (hinv : S.cursorInv) (hfit : S.fitsInt)
    (hnext : S.hasNext = true) : S.next.2.cursorInv := by
  unfold cursorInv count at hinv ⊢
  unfold hasNext at hnext
  rw [toInt_of_le hfit] at hinv
  have hmax : S.cursor ≤ INT_MAX := le_trans hinv.2 hfit
  rw [toSizeT_of_nonneg hinv.1 hmax] at hnext
  have hlt : S.cursor.toNat < S.theElements.length := by simpa using hnext
  have hlt' : S.cursor < (S.theElements.length : Int) := by omega
  unfold fitsInt at hfit
  simp only [next]
  rw [toInt_of_le hfit, wrapInt_of_isInt]
  · omega
  · unfold isInt INT_MIN
    unfold INT_MAX at hfit hmax ⊢
    omega

/-- C6 as the code has it: a newly constructed list satisfies `0 <= cursor <= count()`, and
a call of any public member function keeps the invariant on the receiver, and establishes
it on the list the call returns, provided that a `resetCursor( position )` is given a
position in `[0, count()]` and `next()` is called while `hasNext()` holds (sizes within
`int`). -/
theorem cursorInv_preserved [DecidableEq T] (op : Op T W) (S S' : ListT T)
    (ret : Option (ListT T)) (hinv : S.cursorInv) (hfit : S.fitsInt)
    (hkeep : op.keepsCursorInRange S) (hrun : op.run S = .ok (S', ret))
    (hfit' : S'.fitsInt) (hfitr : ∀ r ∈ ret, r.fitsInt) :
    (new : ListT T).cursorInv ∧ S'.cursorInv ∧ ∀ r ∈ ret, r.cursorInv := by
  refine ⟨new_cursorInv, ?_⟩
  cases op with
  | resetCursor position =>
    cases hrun
    exact ⟨by simpa [cursorInv, resetCursor, count] using hkeep, ret_none_cursorInv⟩
  | hasNext => cases hrun; exact ⟨hinv, ret_none_cursorInv⟩
  | next =>
    obtain ⟨a, -, hEq⟩ := Result.map_eq_ok hrun
    cases hEq
    exact ⟨next_cursorInv hinv hfit hkeep, ret_none_cursorInv⟩
  | slice start stop =>
    obtain ⟨a, ha, hEq⟩ := Result.map_eq_ok hrun
    cases hEq
    exact ⟨hinv, ret_some_cursorInv (cursorInv_of_cursor_zero (slice_cursor ha) (hfitr a rfl))⟩
  | sliceRange range =>
    obtain ⟨a, ha, hEq⟩ := Result.map_eq_ok hrun
    cases hEq
    exact ⟨hinv,
      ret_some_cursorInv (cursorInv_of_cursor_zero (sliceRange_cursor ha) (hfitr a rfl))⟩
  | addList toAdd =>
    have hrun' : (S.addList toAdd).map (fun r => (r.2, some r.1)) = .ok (S', ret) := hrun
    obtain ⟨a, ha, hEq⟩ := Result.map_eq_ok hrun'
    cases hEq
    obtain ⟨h12, hc, hlen⟩ := addList_result ha
    have h2 : a.2.cursorInv := cursorInv_of_le hinv hc hlen hfit'
    exact ⟨h2, ret_some_cursorInv (h12 ▸ h2)⟩
  | copy =>
    obtain ⟨a, ha, hEq⟩ := Result.map_eq_ok hrun
    cases hEq
    exact ⟨hinv, ret_some_cursorInv (cursorInv_of_cursor_zero (copy_cursor ha) (hfitr a rfl))⟩
  | assign rhs =>
    have hrun' : (S.assign rhs).map (fun r => (r.2, some r.1)) = .ok (S', ret) := hrun
    obtain ⟨a, ha, hEq⟩ := Result.map_eq_ok hrun'
    cases hEq
    obtain ⟨hc, h2⟩ := assign_result ha
    exact ⟨h2 ▸ hinv, ret_some_cursorInv (cursorInv_of_cursor_zero hc (hfitr a.1 rfl))⟩
  | reverseCopy =>
    have hrun' : (S.reverseCopy).map (fun r => (S, some r)) = .ok (S', ret) := hrun
    obtain ⟨a, ha, hEq⟩ := Result.map_eq_ok hrun'
    cases hEq
    obtain ⟨tmp, -, rfl⟩ := Result.map_eq_ok ha
    exact ⟨hinv, ret_some_cursorInv (cursorInv_of_cursor_zero rfl (hfitr _ rfl))⟩
  | filter predicate =>
    obtain ⟨a, ha, hEq⟩ := Result.map_eq_ok hrun
    cases hEq
    exact ⟨hinv, ret_some_cursorInv (cursorInv_of_cursor_zero (filter_cursor ha) (hfitr a rfl))⟩
  | shuffle engine =>
    cases hrun
    exact ⟨cursorInv_of_cursor_zero rfl hfit',
      ret_some_cursorInv (cursorInv_of_cursor_zero rfl hfit')⟩
  | reverse =>
    cases hrun
    exact ⟨cursorInv_of_cursor_zero rfl hfit',
      ret_some_cursorInv (cursorInv_of_cursor_zero rfl hfit')⟩
  | get i =>
    obtain ⟨a, -, hEq⟩ := Result.map_eq_ok hrun
    cases hEq
    exact ⟨hinv, ret_none_cursorInv⟩
  | randomGet howMany rng =>
    obtain ⟨a, ha, hEq⟩ := Result.map_eq_ok hrun
    cases hEq
    exact ⟨hinv,
      ret_some_cursorInv (cursorInv_of_cursor_zero (randomGet_cursor ha) (hfitr a.1 rfl))⟩
  | index i =>
    obtain ⟨a, -, hEq⟩ := Result.map_eq_ok hrun
    cases hEq
    exact ⟨hinv, ret_none_cursorInv⟩
  | indexOf element =>
    obtain ⟨a, -, hEq⟩ := Result.map_eq_ok hrun
    cases hEq
    exact ⟨hinv, ret_none_cursorInv⟩
  | add element =>
    cases hrun
    exact ⟨cursorInv_of_le hinv rfl (by simp [add]) hfit', ret_none_cursorInv⟩
  | addAt element position =>
    cases hrun
    refine ⟨cursorInv_of_le hinv ?_ ?_ hfit', ret_none_cursorInv⟩
    · unfold addAt; split <;> rfl
    · unfold addAt; split <;> simp
  | remove position =>
    obtain ⟨a, ha, hEq⟩ := Result.map_eq_ok hrun
    cases hEq
    refine ⟨cursorInv_of_cursor_zero ?_ hfit', ret_none_cursorInv⟩
    unfold remove at ha
    split at ha
    · split at ha <;> (cases ha; rfl)
    · cases ha
  | contains element =>
    obtain ⟨a, -, hEq⟩ := Result.map_eq_ok hrun
    cases hEq
    exact ⟨hinv, ret_none_cursorInv⟩
  | clear => cases hrun; exact ⟨cursorInv_of_cursor_zero rfl hfit', ret_none_cursorInv⟩
  | isEmpty => cases hrun; exact ⟨hinv, ret_none_cursorInv⟩
  | current => cases hrun; exact ⟨hinv, ret_none_cursorInv⟩
  | begin =>
    obtain ⟨a, -, hEq⟩ := Result.map_eq_ok hrun
    cases hEq
    exact ⟨hinv, ret_none_cursorInv⟩
  | end_ =>
    obtain ⟨a, -, hEq⟩ := Result.map_eq_ok hrun
    cases hEq
    exact ⟨hinv, ret_none_cursorInv⟩
  | sort condition =>
    cases hrun
    have h2 : (S.sort condition).2.cursorInv :=
      cursorInv_of_le hinv rfl (by simp [sort, stdSort, List.length_insertionSort]) hfit'
    exact ⟨h2, ret_some_cursorInv h2⟩
  | countIf predicate =>
    obtain ⟨a, -, hEq⟩ := Result.map_eq_ok hrun
    cases hEq
    exact ⟨hinv, ret_none_cursorInv⟩
  | accumulate counter =>
    obtain ⟨a, -, hEq⟩ := Result.map_eq_ok hrun
    cases hEq
    exact ⟨hinv, ret_none_cursorInv⟩
  | forEach doSomething world =>
    obtain ⟨a, -, hEq⟩ := Result.map_eq_ok hrun
    cases hEq
    exact ⟨hinv, ret_none_cursorInv⟩
  | count => cases hrun; exact ⟨hinv, ret_none_cursorInv⟩

/-- C6 at the one-element list `[5]` with the cursor at `0`, for the call `next()`. -/
theorem cursorInv_preserved_witness :
    (⟨0, [5]⟩ : ListT Nat).cursorInv ∧ (⟨0, [5]⟩ : ListT Nat).fitsInt ∧
    (Op.next : Op Nat Unit).keepsCursorInRange ⟨0, [5]⟩ ∧
    (Op.next : Op Nat Unit).run ⟨0, [5]⟩ = .ok (⟨1, [5]⟩, none) ∧
    ((new : ListT Nat).cursorInv ∧ (⟨1, [5]⟩ : ListT Nat).cursorInv ∧
      ∀ r ∈ (none : Option (ListT Nat)), r.cursorInv) :=
  ⟨by decide, by decide, (by decide : (⟨0, [5]⟩ : ListT Nat).hasNext = true), by decide,
    cursorInv_preserved (Op.next : Op Nat Unit) ⟨0, [5]⟩ ⟨1, [5]⟩ none (by decide) (by decide)
      (by decide : (⟨0, [5]⟩ : ListT Nat).hasNext = true) (by decide) (by decide)
      (fun r hr => by cases hr)⟩

/-- C6 as stated fails: on a new (empty) list, whose cursor is in range, `resetCursor( -1 )`
leaves the cursor at `-1`; on `[1, 2, 3]`, `resetCursor( 4 )` leaves it at `4 > count()`;
and on the empty list, where `hasNext()` is false, `next()` leaves it at `1 > count()`. -/
theorem cursorInv_broken_by_unchecked_cursor :
    (new : ListT Nat).cursorInv ∧
    ¬ ((new : ListT Nat).resetCursor (-1)).cursorInv ∧
    (⟨0, [1, 2, 3]⟩ : ListT Nat).cursorInv ∧
    ¬ ((⟨0, [1, 2, 3]⟩ : ListT Nat).resetCursor 4).cursorInv ∧
    (new : ListT Nat).hasNext = false ∧
    ¬ (new : ListT Nat).next.2.cursorInv := by
  decide

/-! ## The iteration protocol -/

theorem iterate_from {T : Type} (elems : List T) (hmax : (elems.length : Int) ≤ INT_MAX) :
    ∀ (d k fuel : Nat), k + d = elems.length → d < fuel →
      iterate fuel (⟨(k : Int), elems⟩ : ListT T)
        = .ok ((elems.drop k).map Result.ok, ⟨(elems.length : Int), elems⟩) := by
  intro d
  induction d with
  | zero =>
    intro k fuel hk hf
    obtain ⟨fuel, rfl⟩ : ∃ m, fuel = m + 1 := ⟨fuel - 1, by omega⟩
    have hk' : k = elems.length := by omega
    subst hk'
    simp [iterate, hasNext, toSizeT_natCast hmax]
  | succ d ih =>
    intro k fuel hk hf
    obtain ⟨fuel, rfl⟩ : ∃ m, fuel = m + 1 := ⟨fuel - 1, by omega⟩
    have hlt : k < elems.length := by omega
    have hkmax : (k : Int) ≤ INT_MAX := by
      have : (k : Int) < (elems.length : Int) := by exact_mod_cast hlt
      omega
    have hwrap : wrapInt ((k : Int) + 1) = ((k + 1 : Nat) : Int) := by
      rw [wrapInt_of_isInt]
      · push_cast; rfl
      · unfold isInt INT_MIN
        unfold INT_MAX at hmax ⊢
        omega
    rw [iterate]
    simp only [hasNext, next, toSizeT_natCast hkmax, hlt, decide_True, if_true, hwrap,
      vectorAt_natCast elems k hlt hkmax]
    rw [ih (k + 1) fuel (by omega) (by omega), List.drop_eq_getElem_cons hlt]
    rfl

/-- C7: after `resetCursor( 0 )` the loop `while ( hasNext() ) next()` stops after exactly
`n = count()` calls of `next()`; the `i`-th call returns the element at index `i`;
afterwards the cursor is `n` and `hasNext()` is false.  On an empty list `hasNext()` is
false whatever the cursor is. -/
theorem cursor_protocol_visits_each_once (S : ListT T) (hfit : S.fitsInt) (fuel : Nat)
    (hfuel : S.theElements.length < fuel) :
    ∃ (visited : List (Result T)) (S' : ListT T),
      iterate fuel (S.resetCursor 0) = .ok (visited, S') ∧
      visited.length = S.theElements.length ∧
      (∀ (i : Nat) (hi : i < S.theElements.length), visited[i]? = some (.ok S.theElements[i])) ∧
      S'.theElements = S.theElements ∧
      S'.cursor = S.count ∧
      S'.hasNext = false ∧
      ∀ c : Int, (⟨c, []⟩ : ListT T).hasNext = false := by
  refine ⟨S.theElements.map Result.ok, ⟨(S.theElements.length : Int), S.theElements⟩,
    ?_, by simp, ?_, rfl, ?_, ?_, ?_⟩
  · have h := iterate_from S.theElements hfit S.theElements.length 0 fuel (by omega) hfuel
    simpa [resetCursor] using h
  · intro i hi
    simp [List.getElem?_eq_getElem hi]
  · simp only [count]
    rw [toInt_of_le hfit]
  · simp [hasNext, toSizeT_natCast hfit]
  · intro c
    simp [hasNext]

/-- C7 at the list `[3, 1, 2]`, entered with the cursor at `2`. -/
theorem cursor_protocol_visits_each_once_witness :
    (⟨2, [3, 1, 2]⟩ : ListT Nat).fitsInt ∧ ([3, 1, 2] : List Nat).length < 4 ∧
    iterate 4 ((⟨2, [3, 1, 2]⟩ : ListT Nat).resetCursor 0)
      = .ok ([.ok 3, .ok 1, .ok 2], ⟨3, [3, 1, 2]⟩) ∧
    ∃ (visited : List (Result Nat)) (S' : ListT Nat),
      iterate 4 ((⟨2, [3, 1, 2]⟩ : ListT Nat).resetCursor 0) = .ok (visited, S') ∧
      visited.length = 3 ∧
      (∀ (i : Nat) (hi : i < 3), visited[i]? = some (.ok ([3, 1, 2] : List Nat)[i])) ∧
      S'.theElements = [3, 1, 2] ∧
      S'.cursor = (⟨2, [3, 1, 2]⟩ : ListT Nat).count ∧
      S'.hasNext = false ∧
      ∀ c : Int, (⟨c, []⟩ : ListT Nat).hasNext = false :=
  ⟨by decide, by decide, by decide,
    cursor_protocol_visits_each_once ⟨2, [3, 1, 2]⟩ (by decide) 4 (by decide)⟩

/-! ## Reordering, assignment and chaining -/

/-- C8, evaluated on the code: on the list `[3, 1, 2]` with the cursor at `2`,
`sort( a < b )` orders the elements and leaves the cursor of the receiver (and of the
returned copy) at `2`, whereas `reverse()` and `shuffle()` on the same list leave it at
`0`. -/
theorem sort_leaves_cursor_where_it_was :
    ((⟨2, [3, 1, 2]⟩ : ListT Nat).sort (fun a b => decide (a < b))).2 = ⟨2, [1, 2, 3]⟩ ∧
    ((⟨2, [3, 1, 2]⟩ : ListT Nat).sort (fun a b => decide (a < b))).1 = ⟨2, [1, 2, 3]⟩ ∧
    (⟨2, [3, 1, 2]⟩ : ListT Nat).reverse.2 = ⟨0, [2, 1, 3]⟩ ∧
    ((⟨2, [3, 1, 2]⟩ : ListT Nat).shuffle ⟨List.reverse, List.reverse_perm⟩).2.cursor = 0 := by
  decide

/-- C9, evaluated on the code: with `a = [7]` and `b = [1, 2]`, the call `a = b` returns a
list holding `[1, 2]` and leaves the receiver `a` holding `[7]`. -/
theorem assign_leaves_receiver_unchanged :
    (⟨0, [7]⟩ : ListT Nat).assign ⟨0, [1, 2]⟩ = .ok (⟨0, [1, 2]⟩, ⟨0, [7]⟩) ∧
    (new : ListT Nat).assign ⟨0, [1, 2]⟩ = .ok (⟨0, [1, 2]⟩, new) := by
  decide

/-- C10 as stated fails: after `S.reverse().reverse()` on `S = [1, 2, 3]` the receiver holds
`[3, 2, 1]`, not its original order; only the value of the expression holds `[1, 2, 3]`. -/
theorem reverse_chain_receiver_not_restored :
    (⟨0, [1, 2, 3]⟩ : ListT Nat).reverseReverse.2.theElements = [3, 2, 1] ∧
    (⟨0, [1, 2, 3]⟩ : ListT Nat).reverseReverse.2.theElements ≠ [1, 2, 3] ∧
    (⟨0, [1, 2, 3]⟩ : ListT Nat).reverseReverse.1.theElements = [1, 2, 3] := by
  decide

/-- C10 as the code has it: `reverse()` reverses the receiver and returns a copy of it by
value, so in `S.reverse().reverse()` the second call acts on that copy: afterwards `S`
holds its elements in reversed order (one reversal), and the list the expression evaluates
to holds them in the original order; both cursors are `0`. -/
theorem reverse_chain_acts_on_returned_copy (S : ListT T) :
    S.reverse.1 = S.reverse.2 ∧
    S.reverseReverse.2.theElements = S.theElements.reverse ∧
    S.reverseReverse.1.theElements = S.theElements ∧
    S.reverseReverse.2.cursor = 0 ∧
    S.reverseReverse.1.cursor = 0 := by
  simp [reverseReverse, reverse]

/-- C11: `reverse()` puts the `n` elements in exactly reverse order, in the receiver and
in the list it returns: the element formerly at index `i` is at index `n - 1 - i`.  The list
that `S.reverse().reverse()` evaluates to has the elements of `S` in their original
order. -/
theorem reverse_reverses_order (S : ListT T) :
    S.reverse.2.theElements = S.theElements.reverse ∧
    S.reverse.1.theElements = S.theElements.reverse ∧
    S.reverse.2.theElements.length = S.theElements.length ∧
    (∀ (i : Nat) (hi : i < S.theElements.length),
      S.reverse.2.theElements[S.theElements.length - 1 - i]? = some S.theElements[i] ∧
      S.reverse.1.theElements[S.theElements.length - 1 - i]? = some S.theElements[i]) ∧
    S.reverseReverse.1.theElements = S.theElements := by
  refine ⟨rfl, rfl, by simp [reverse], ?_, by simp [reverseReverse, reverse]⟩
  intro i hi
  have h : S.theElements.reverse[S.theElements.length - 1 - i]? = some S.theElements[i] := by
    rw [List.getElem?_reverse (by omega)]
    have : S.theElements.length - 1 - (S.theElements.length - 1 - i) = i := by omega
    rw [this, List.getElem?_eq_getElem hi]
  exact ⟨h, h⟩

/-- C12, evaluated on the code: on the non-empty lists `[1, 2, 3]` and `[5]`, `end()` reads
`theElements[ size ]`, one position past the last element; the last element is at
`size - 1`. -/
theorem end_reads_past_the_last_element :
    (⟨0, [1, 2, 3]⟩ : ListT Nat).end_ = .error .outOfBounds ∧
    (⟨0, [5]⟩ : ListT Nat).end_ = .error .outOfBounds ∧
    (⟨0, [1, 2, 3]⟩ : ListT Nat).index ((⟨0, [1, 2, 3]⟩ : ListT Nat).count - 1) = .ok 3 := by
  decide

/-! ## Indexed access and search -/

theorem toSizeT_lt_iff {x : Int} {n : Nat} (hx : isInt x) (hn : (n : Int) ≤ INT_MAX) :
    toSizeT x < n ↔ 0 ≤ x ∧ x < (n : Int) := by
  unfold isInt INT_MIN INT_MAX at hx
  unfold INT_MAX at hn
  unfold toSizeT
  omega

/-- C14: `get( index )` and `operator[]( index )` return the element at `index` when
`0 <= index < count()`, and for every other `int` index, the negative ones included, they
stop at the assertion `index < theElements.size()` (an unsigned comparison) without
returning a value. -/
theorem get_and_index_are_bounds_checked (S : ListT T) (i : Int) (hi : isInt i)
    (hfit : S.fitsInt) :
    (0 ≤ i ∧ i < S.count →
      ∃ x, S.theElements[i.toNat]? = some x ∧ S.get i = .ok x ∧ S.index i = .ok x) ∧
    (¬ (0 ≤ i ∧ i < S.count) →
      S.get i = .error .assertion ∧ S.index i = .error .assertion) := by
  have hcount : S.count = (S.theElements.length : Int) := toInt_of_le hfit
  have hiff := toSizeT_lt_iff (n := S.theElements.length) hi hfit
  rw [hcount]
  constructor
  · intro hin
    have hlt : toSizeT i < S.theElements.length := hiff.mpr hin
    have hto : toSizeT i = i.toNat := toSizeT_of_nonneg hin.1 hi.2
    have hlt' : i.toNat < S.theElements.length := hto ▸ hlt
    refine ⟨S.theElements[i.toNat], List.getElem?_eq_getElem hlt', ?_, ?_⟩
    · simp only [get, vectorAt, hto, List.getElem?_eq_getElem hlt', if_pos hlt']
    · simp only [index, vectorAt, hto, List.getElem?_eq_getElem hlt', if_pos hlt']
  · intro hout
    have hnlt : ¬ toSizeT i < S.theElements.length := fun h => hout (hiff.mp h)
    exact ⟨by simp only [get, hnlt, if_false], by simp only [index, hnlt, if_false]⟩

/-- C14 at the list `[3, 2, 1]` and the index `-1`. -/
theorem get_and_index_are_bounds_checked_witness :
    isInt (-1) ∧ (⟨0, [3, 2, 1]⟩ : ListT Nat).fitsInt ∧
    (⟨0, [3, 2, 1]⟩ : ListT Nat).get (-1) = .error .assertion ∧
    (⟨0, [3, 2, 1]⟩ : ListT Nat).index (-1) = .error .assertion ∧
    (⟨0, [3, 2, 1]⟩ : ListT Nat).get 3 = .error .assertion ∧
    (⟨0, [3, 2, 1]⟩ : ListT Nat).get 2 = .ok 1 :=
  ⟨by decide, by decide,
    ((get_and_index_are_bounds_checked ⟨0, [3, 2, 1]⟩ (-1) (by decide) (by decide)).2
      (by decide)).1,
    ((get_and_index_are_bounds_checked ⟨0, [3, 2, 1]⟩ (-1) (by decide) (by decide)).2
      (by decide)).2,
    by decide, by decide⟩

theorem wrapInt_succ_natCast {k n : Nat} (hk : k < n) (hn : (n : Int) ≤ INT_MAX) :
    wrapInt ((k : Int) + 1) = ((k + 1 : Nat) : Int) := by
  rw [wrapInt_of_isInt]
  · push_cast; rfl
  · unfold isInt INT_MIN
    unfold INT_MAX at hn ⊢
    omega

theorem searchLoops_found [DecidableEq T] (elems : List T) (e : T)
    (hmax : (elems.length : Int) ≤ INT_MAX) (i : Nat) (hi : i < elems.length)
    (hie : elems[i] = e) :
    ∀ (d k fuel : Nat), k + d = i → d < fuel →
      (∀ j, k ≤ j → j < i → elems[j]? ≠ some e) →
      indexOfLoop elems e fuel (k : Int) = .ok (i : Int) ∧
      containsLoop elems e fuel (k : Int) = .ok true := by
  intro d
  induction d with
  | zero =>
    intro k fuel hk hf _
    obtain ⟨fuel, rfl⟩ : ∃ m, fuel = m + 1 := ⟨fuel - 1, by omega⟩
    have hk' : k = i := by omega
    subst hk'
    have hkmax : (k : Int) ≤ INT_MAX := by omega
    simp [indexOfLoop, containsLoop, toSizeT_natCast hkmax, hi,
      vectorAt_natCast elems k hi hkmax, hie]
  | succ d ih =>
    intro k fuel hk hf hmin
    obtain ⟨fuel, rfl⟩ : ∃ m, fuel = m + 1 := ⟨fuel - 1, by omega⟩
    have hlt : k < elems.length := by omega
    have hkmax : (k : Int) ≤ INT_MAX := by omega
    have hne : elems[k] ≠ e := by
      intro h
      exact hmin k (le_refl _) (by omega) (by rw [List.getElem?_eq_getElem hlt, h])
    have hrec := ih (k + 1) fuel (by omega) (by omega)
      (fun j hj hji => hmin j (by omega) hji)
    rw [indexOfLoop, containsLoop]
    simp only [toSizeT_natCast hkmax, hlt, if_true, vectorAt_natCast elems k hlt hkmax,
      if_neg hne, wrapInt_succ_natCast hlt hmax]
    exact hrec

theorem searchLoops_absent [DecidableEq T] (elems : List T) (e : T)
    (hmax : (elems.length : Int) ≤ INT_MAX) :
    ∀ (d k fuel : Nat), k + d = elems.length → d < fuel →
      (∀ j, k ≤ j → j < elems.length → elems[j]? ≠ some e) →
      indexOfLoop elems e fuel (k : Int) = .ok notFound ∧
      containsLoop elems e fuel (k : Int) = .ok false := by
  intro d
  induction d with
  | zero =>
    intro k fuel hk hf _
    obtain ⟨fuel, rfl⟩ : ∃ m, fuel = m + 1 := ⟨fuel - 1, by omega⟩
    have hk' : k = elems.length := by omega
    subst hk'
    simp [indexOfLoop, containsLoop, toSizeT_natCast hmax]
  | succ d ih =>
    intro k fuel hk hf hmin
    obtain ⟨fuel, rfl⟩ : ∃ m, fuel = m + 1 := ⟨fuel - 1, by omega⟩
    have hlt : k < elems.length := by omega
    have hkmax : (k : Int) ≤ INT_MAX := by omega
    have hne : elems[k] ≠ e := by
      intro h
      exact hmin k (le_refl _) hlt (by rw [List.getElem?_eq_getElem hlt, h])
    have hrec := ih (k + 1) fuel (by omega) (by omega)
      (fun j hj hjl => hmin j (by omega) hjl)
    rw [indexOfLoop, containsLoop]
    simp only [toSizeT_natCast hkmax, hlt, if_true, vectorAt_natCast elems k hlt hkmax,
      if_neg hne, wrapInt_succ_natCast hlt hmax]
    exact hrec

/-- C15: `indexOf( e )` returns the smallest index at which the element equals `e` when
there is one, and the sentinel `notFound = -1`, which is no valid index, exactly when no
element equals `e`; `contains( e )` is true exactly when `indexOf( e )` is not the
sentinel. -/
theorem indexOf_first_match_or_sentinel [DecidableEq T] (S : ListT T) (e : T)
    (hfit : S.fitsInt) :
    ∃ (r : Int) (b : Bool), S.indexOf e = .ok r ∧ S.contains e = .ok b ∧
      (e ∈ S.theElements → 0 ≤ r ∧ r < S.count ∧ S.theElements[r.toNat]? = some e ∧
        ∀ j : Nat, j < r.toNat → S.theElements[j]? ≠ some e) ∧
      (r = notFound ↔ e ∉ S.theElements) ∧
      ¬ (0 ≤ (notFound : Int) ∧ notFound < S.count) ∧
      (b = true ↔ r ≠ notFound) := by
  classical
  have hcount : S.count = (S.theElements.length : Int) := toInt_of_le hfit
  by_cases hmem : e ∈ S.theElements
  · have hex : ∃ i, S.theElements[i]? = some e := List.getElem?_of_mem hmem
    have hspec := Nat.find_spec hex
    have hmin : ∀ j, j < Nat.find hex → S.theElements[j]? ≠ some e :=
      fun j hj => Nat.find_min hex hj
    obtain ⟨hi, hie⟩ := List.getElem?_eq_some.mp hspec
    have hloops := searchLoops_found S.theElements e hfit (Nat.find hex) hi hie
      (Nat.find hex) 0 (S.theElements.length + 1) (by omega) (by omega)
      (fun j _ hj => hmin j hj)
    refine ⟨(Nat.find hex : Int), true, hloops.1, hloops.2, ?_, ?_, ?_, ?_⟩
    · intro _
      rw [hcount]
      refine ⟨by omega, by exact_mod_cast hi, by simpa using hspec, ?_⟩
      intro j hj
      exact hmin j (by simpa using hj)
    · unfold notFound
      constructor
      · intro h; omega
      · intro h; exact absurd hmem h
    · unfold notFound; omega
    · unfold notFound
      constructor
      · intro _; omega
      · intro _; rfl
  · have habs : ∀ j, 0 ≤ j → j < S.theElements.length → S.theElements[j]? ≠ some e := by
      intro j _ hj h
      exact hmem (List.getElem?_mem h)
    have hloops := searchLoops_absent S.theElements e hfit S.theElements.length 0
      (S.theElements.length + 1) (by omega) (by omega) habs
    refine ⟨notFound, false, hloops.1, hloops.2, ?_, ?_, ?_, ?_⟩
    · intro h; exact absurd h hmem
    · exact ⟨fun _ => hmem, fun _ => rfl⟩
    · unfold notFound; omega
    · simp

/-- C15 at the list `[3, 2, 1]`, looked up for `2` (found at index `1`). -/
theorem indexOf_first_match_or_sentinel_witness :
    (⟨0, [3, 2, 1]⟩ : ListT Nat).fitsInt ∧
    (⟨0, [3, 2, 1]⟩ : ListT Nat).indexOf 2 = .ok 1 ∧
    (⟨0, [3, 2, 1]⟩ : ListT Nat).indexOf 7 = .ok (-1) ∧
    (⟨0, [3, 2, 1]⟩ : ListT Nat).contains 7 = .ok false ∧
    ∃ (r : Int) (b : Bool), (⟨0, [3, 2, 1]⟩ : ListT Nat).indexOf 2 = .ok r ∧
      (⟨0, [3, 2, 1]⟩ : ListT Nat).contains 2 = .ok b ∧
      (2 ∈ ([3, 2, 1] : List Nat) → 0 ≤ r ∧ r < (⟨0, [3, 2, 1]⟩ : ListT Nat).count ∧
        ([3, 2, 1] : List Nat)[r.toNat]? = some 2 ∧
        ∀ j : Nat, j < r.toNat → ([3, 2, 1] : List Nat)[j]? ≠ some 2) ∧
      (r = notFound ↔ 2 ∉ ([3, 2, 1] : List Nat)) ∧
      ¬ (0 ≤ (notFound : Int) ∧ notFound < (⟨0, [3, 2, 1]⟩ : ListT Nat).count) ∧
      (b = true ↔ r ≠ notFound) :=
  ⟨by decide, by decide, by decide, by decide,
    indexOf_first_match_or_sentinel ⟨0, [3, 2, 1]⟩ 2 (by decide)⟩

/-! ## Adding elements -/

/-- C16: `add( e, position )` returns true exactly when `0 <= position < count()`; then
only the element at `position` changes, to `e`; otherwise the list is unchanged.  In both
cases the size, `count()` and the cursor stay as they were. -/
theorem addAt_overwrites_in_bounds (S : ListT T) (e : T) (position : Int)
    (hp : isInt position) (hfit : S.fitsInt) :
    (S.addAt e position).1 = decide (0 ≤ position ∧ position < S.count) ∧
    (0 ≤ position ∧ position < S.count →
      (S.addAt e position).2.theElements = S.theElements.set position.toNat e ∧
      (S.addAt e position).2.theElements[position.toNat]? = some e ∧
      ∀ j : Nat, j ≠ position.toNat →
        (S.addAt e position).2.theElements[j]? = S.theElements[j]?) ∧
    (¬ (0 ≤ position ∧ position < S.count) → (S.addAt e position).2 = S) ∧
    (S.addAt e position).2.theElements.length = S.theElements.length ∧
    (S.addAt e position).2.count = S.count ∧
    (S.addAt e position).2.cursor = S.cursor := by
  have hcount : S.count = (S.theElements.length : Int) := toInt_of_le hfit
  have hiff := toSizeT_lt_iff (n := S.theElements.length) hp hfit
  rw [hcount]
  by_cases hin : 0 ≤ position ∧ position < (S.theElements.length : Int)
  · have hlt : toSizeT position < S.theElements.length := hiff.mpr hin
    have hto : toSizeT position = position.toNat := toSizeT_of_nonneg hin.1 hp.2
    have hc : position ≥ 0 ∧ toSizeT position < S.theElements.length := ⟨hin.1, hlt⟩
    have hlt' : position.toNat < S.theElements.length := hto ▸ hlt
    have hadd : S.addAt e position
        = (true, ⟨S.cursor, S.theElements.set position.toNat e⟩) := by
      unfold addAt
      rw [if_pos hc, hto]
    rw [hadd]
    refine ⟨by simp [hin], fun _ => ⟨rfl, ?_, ?_⟩, fun h => absurd hin h, ?_, ?_, rfl⟩
    · simp [List.getElem?_set, hlt']
    · intro j hj
      simp only
      rw [List.getElem?_set_ne (Ne.symm hj)]
    · simp
    · simp only [count, List.length_set]
      exact toInt_of_le hfit
  · have hc : ¬ (position ≥ 0 ∧ toSizeT position < S.theElements.length) :=
      fun h => hin (hiff.mp h.2)
    have hadd : S.addAt e position = (false, S) := by
      unfold addAt
      rw [if_neg hc]
    rw [hadd]
    exact ⟨by simp [hin], fun h => absurd h hin, fun _ => rfl, rfl, hcount, rfl⟩

/-- C16 at the list `[3, 2, 1]` with the cursor at `1`, `add( 9, 2 )`. -/
theorem addAt_overwrites_in_bounds_witness :
    isInt 2 ∧ (⟨1, [3, 2, 1]⟩ : ListT Nat).fitsInt ∧
    (⟨1, [3, 2, 1]⟩ : ListT Nat).addAt 9 2 = (true, ⟨1, [3, 2, 9]⟩) ∧
    (⟨1, [3, 2, 1]⟩ : ListT Nat).addAt 9 3 = (false, ⟨1, [3, 2, 1]⟩) ∧
    ((⟨1, [3, 2, 1]⟩ : ListT Nat).addAt 9 2).1
      = decide ((0 : Int) ≤ 2 ∧ (2 : Int) < (⟨1, [3, 2, 1]⟩ : ListT Nat).count) :=
  ⟨by decide, by decide, by decide, by decide,
    (addAt_overwrites_in_bounds ⟨1, [3, 2, 1]⟩ 9 2 (by decide) (by decide)).1⟩

theorem index_natCast (S : ListT T) (hfit : S.fitsInt) (k : Nat)
    (hk : k < S.theElements.length) : S.index (k : Int) = .ok S.theElements[k] := by
  have hkmax : (k : Int) ≤ INT_MAX := by
    have : (k : Int) < (S.theElements.length : Int) := by exact_mod_cast hk
    unfold fitsInt at hfit
    omega
  unfold index
  rw [toSizeT_natCast hkmax, if_pos hk, vectorAt_natCast _ k hk hkmax]

theorem addList_eq (S toAdd : ListT T) (hfit : toAdd.fitsInt) :
    S.addList toAdd = .ok (⟨S.cursor, S.theElements ++ toAdd.theElements⟩,
      ⟨S.cursor, S.theElements ++ toAdd.theElements⟩) := by
  have hcount : toAdd.count = (toAdd.theElements.length : Int) := toInt_of_le hfit
  have h := forLoop_elems toAdd.theElements (fun s x => (add s x).2)
    (fun i => decide (i < toAdd.count))
    (fun i this =>
      match toAdd.index i with
      | .ok x => .ok (add this x).2
      | .error e => .error e)
    hfit
    (fun k _ => by rw [hcount]; simp)
    (fun k hk s => by simp only [index_natCast toAdd hfit k hk])
    toAdd.theElements.length 0 (toAdd.theElements.length + 1) S (by omega) (by omega)
  simp only [Nat.cast_zero, List.drop_zero, foldl_add] at h
  unfold addList
  rw [h]
  rfl

/-- C17: `S.add( other )` returns, and leaves `S` holding its former elements followed by
all elements of `other` in order, so that `count()` is the old `count()` plus
`other.count()`; the returned list has the same elements.  `other` is passed by value, so
the same holds for `S.add( S )`, which yields the elements of `S` twice. -/
theorem addList_appends_other (S other : ListT T)
    (hsum : (S.theElements.length : Int) + (other.theElements.length : Int) ≤ INT_MAX) :
    ∃ returned S' : ListT T, S.addList other = .ok (returned, S') ∧
      S'.theElements = S.theElements ++ other.theElements ∧
      returned.theElements = S.theElements ++ other.theElements ∧
      S'.count = S.count + other.count ∧
      S'.cursor = S.cursor := by
  have hfitO : other.fitsInt := by unfold fitsInt; omega
  have hfitS : S.fitsInt := by unfold fitsInt; omega
  refine ⟨_, _, addList_eq S other hfitO, rfl, rfl, ?_, rfl⟩
  simp only [count, List.length_append]
  rw [toInt_of_le hfitO, toInt_of_le hfitS, toInt_of_le (by push_cast; exact hsum)]
  push_cast
  rfl

/-- C17 at `S = [1, 2]` with `other` being `S` itself. -/
theorem addList_appends_other_witness :
    (((⟨0, [1, 2]⟩ : ListT Nat).theElements.length : Int)
      + ((⟨0, [1, 2]⟩ : ListT Nat).theElements.length : Int) ≤ INT_MAX) ∧
    (⟨0, [1, 2]⟩ : ListT Nat).addList ⟨0, [1, 2]⟩ = .ok (⟨0, [1, 2, 1, 2]⟩, ⟨0, [1, 2, 1, 2]⟩) ∧
    ∃ returned S' : ListT Nat, (⟨0, [1, 2]⟩ : ListT Nat).addList ⟨0, [1, 2]⟩ = .ok (returned, S') ∧
      S'.theElements = [1, 2] ++ [1, 2] ∧
      returned.theElements = [1, 2] ++ [1, 2] ∧
      S'.count = (⟨0, [1, 2]⟩ : ListT Nat).count + (⟨0, [1, 2]⟩ : ListT Nat).count ∧
      S'.cursor = 0 :=
  ⟨by decide, by decide, addList_appends_other ⟨0, [1, 2]⟩ ⟨0, [1, 2]⟩ (by decide)⟩

end ListT

/-! ## Random sampling -/

/-- A counting loop `for ( int i = 0; i < M; i++ )` whose body never faults while an
invariant `P i` holds, and re-establishes it for `i + 1`, returns with `P M`. -/
theorem forLoop_counted {σ : Type} (P : Nat → σ → Prop) (M : Nat) (hM : (M : Int) ≤ INT_MAX)
    (cond : Int → Bool) (body : Int → σ → Result σ)
    (hcond : ∀ k : Nat, k ≤ M → cond (k : Int) = decide (k < M))
    (hstep : ∀ (k : Nat) (s : σ), k < M → P k s → ∃ s', body (k : Int) s = .ok s' ∧ P (k + 1) s') :
    ∀ (d k fuel : Nat) (s : σ), k + d = M → d < fuel → P k s →
      ∃ s', forLoop cond body fuel (k : Int) s = .ok s' ∧ P M s' := by
  intro d
  induction d with
  | zero =>
    intro k fuel s hk hf hP
    obtain ⟨fuel, rfl⟩ : ∃ m, fuel = m + 1 := ⟨fuel - 1, by omega⟩
    have hk' : k = M := by omega
    subst hk'
    exact ⟨s, by simp [forLoop, hcond], hP⟩
  | succ d ih =>
    intro k fuel s hk hf hP
    obtain ⟨fuel, rfl⟩ : ∃ m, fuel = m + 1 := ⟨fuel - 1, by omega⟩
    have hlt : k < M := by omega
    obtain ⟨s1, hb, hP1⟩ := hstep k s hlt hP
    obtain ⟨s', hloop, hP'⟩ := ih (k + 1) fuel s1 (by omega) (by omega) hP1
    refine ⟨s', ?_, hP'⟩
    have hwrap : wrapInt ((k : Int) + 1) = ((k + 1 : Nat) : Int) := by
      rw [wrapInt_of_isInt]
      · push_cast; rfl
      · unfold isInt INT_MIN
        unfold INT_MAX at hM ⊢
        omega
    rw [forLoop, hcond k (by omega), decide_eq_true hlt, if_pos rfl, hb]
    simp only [hwrap]
    exact hloop

theorem vectorAt_of_range {T : Type} (v : List T) (i : Int) (h0 : 0 ≤ i)
    (hlt : i < (v.length : Int)) (hmax : (v.length : Int) ≤ INT_MAX) :
    ∃ x, vectorAt v i = .ok x ∧ x ∈ v := by
  have hi : i.toNat < v.length := by omega
  refine ⟨v[i.toNat], ?_, List.getElem_mem _⟩
  have h := vectorAt_natCast v i.toNat hi (by omega)
  rwa [Int.toNat_of_nonneg h0] at h

namespace ListT

variable {T W : Type}

theorem randomGet_loop (S : ListT T) (rng : RandomGenerator) (M : Nat)
    (hM : (M : Int) ≤ S.count) (hfit : S.fitsInt) (hrng : rng.inRange) :
    ∃ st : ListT T × RandomGenerator,
      forLoop (fun i => decide (i < (M : Int)))
        (fun _ st =>
          let r := st.2.getRandomInt S.count
          match vectorAt S.theElements r.1 with
          | .ok x => .ok ((add st.1 x).2, r.2)
          | .error e => .error e)
        (M + 1) 0 ((new : ListT T), rng) = .ok st ∧
      st.1.cursor = 0 ∧ st.1.theElements.length = M ∧
      (∀ x ∈ st.1.theElements, x ∈ S.theElements) ∧
      st.2.outputs = rng.outputs ∧ st.2.consulted = rng.consulted + M := by
  have hcount : S.count = (S.theElements.length : Int) := toInt_of_le hfit
  have hMmax : (M : Int) ≤ INT_MAX := le_trans hM (toInt_le_INT_MAX _)
  have h := forLoop_counted
    (fun k (st : ListT T × RandomGenerator) =>
      st.1.cursor = 0 ∧ st.1.theElements.length = k ∧
      (∀ x ∈ st.1.theElements, x ∈ S.theElements) ∧
      st.2.outputs = rng.outputs ∧ st.2.consulted = rng.consulted + k)
    M hMmax (fun i => decide (i < (M : Int)))
    (fun _ st =>
      let r := st.2.getRandomInt S.count
      match vectorAt S.theElements r.1 with
      | .ok x => .ok ((add st.1 x).2, r.2)
      | .error e => .error e)
    (fun k _ => by simp)
    (fun k st hk hP => by
      obtain ⟨hc, hl, hmem, hout, hcons⟩ := hP
      have hpos : 0 < S.count := by
        have : (k : Int) < (M : Int) := by exact_mod_cast hk
        omega
      obtain ⟨h0, hlt⟩ := hrng st.2.consulted S.count hpos
      rw [← hout] at h0 hlt
      obtain ⟨x, hx, hxmem⟩ := vectorAt_of_range S.theElements
        (st.2.outputs st.2.consulted S.count) h0 (hcount ▸ hlt) hfit
      refine ⟨((add st.1 x).2, (st.2.getRandomInt S.count).2), ?_, ?_⟩
      · simp only [RandomGenerator.getRandomInt, hx]
      · refine ⟨by simpa [add] using hc, by simp [add, hl], ?_, by simpa [RandomGenerator.getRandomInt] using hout,
          by simp [RandomGenerator.getRandomInt, hcons]; omega⟩
        intro y hy
        simp only [add, List.mem_append, List.mem_singleton] at hy
        rcases hy with hy | hy
        · exact hmem y hy
        · exact hy ▸ hxmem)
    M 0 (M + 1) ((new : ListT T), rng) (by omega) (by omega)
    (by simp [new])
  obtain ⟨st, hloop, hP⟩ := h
  exact ⟨st, by simpa using hloop, hP⟩

/-- C18: for `n >= 0` and a random source whose `getRandomInt( k )` answers in `[0, k)`,
`randomGet( n )` returns a list of exactly `min( n, count() )` elements, each of them an
element of the receiver; the random source is consulted once per element, so not at all
for an empty receiver, whose result is empty; the receiver is left as it was. -/
theorem randomGet_samples_receiver (S : ListT T) (n : Int) (rng : RandomGenerator)
    (hn : 0 ≤ n) (hfit : S.fitsInt) (hrng : rng.inRange) :
    ∃ (r : ListT T) (rng' : RandomGenerator), S.randomGet n rng = .ok (r, rng') ∧
      r.count = min n S.count ∧
      (r.theElements.length : Int) = min n S.count ∧
      (∀ x ∈ r.theElements, x ∈ S.theElements) ∧
      r.cursor = 0 ∧
      rng'.consulted = rng.consulted + r.theElements.length ∧
      (S.theElements = [] → r = new ∧ rng' = rng) ∧
      (∀ [DecidableEq T], Op.run (Op.randomGet n rng : Op T W) S = .ok (S, some r)) := by
  have hcount : S.count = (S.theElements.length : Int) := toInt_of_le hfit
  obtain ⟨M, hMm, hMmin⟩ : ∃ M : Nat,
      (if n > S.count then S.count else n) = (M : Int) ∧ min n S.count = (M : Int) := by
    by_cases hgt : n > S.count
    · refine ⟨S.count.toNat, ?_, ?_⟩
      · rw [if_pos hgt]; omega
      · rw [min_eq_right (le_of_lt hgt)]; omega
    · refine ⟨n.toNat, ?_, ?_⟩
      · rw [if_neg hgt]; omega
      · rw [min_eq_left (not_lt.mp hgt)]; omega
  have hMle : (M : Int) ≤ S.count := by rw [← hMmin]; exact min_le_right _ _
  obtain ⟨st, hloop, hc, hl, hmem, hout, hcons⟩ := randomGet_loop S rng M hMle hfit hrng
  have hrun : S.randomGet n rng = .ok st := by
    unfold randomGet
    simp only [hMm, Int.toNat_ofNat]
    exact hloop
  refine ⟨st.1, st.2, hrun, ?_, ?_, hmem, hc, ?_, ?_, ?_⟩
  · have hcnt : st.1.count = toInt M := by simp only [count, hl]
    rw [hcnt, hMmin]
    exact toInt_of_le (le_trans hMle (toInt_le_INT_MAX _))
  · rw [hl, hMmin]
  · rw [hl, hcons]
  · intro hempty
    have hM0 : M = 0 := by
      rw [hcount, hempty] at hMle
      simpa using hMle
    subst hM0
    obtain ⟨⟨c, l⟩, ⟨o, k⟩⟩ := st
    simp only at hc hl hout hcons
    have hnil : l = [] := List.length_eq_zero.mp hl
    subst hc hnil hout
    simp only [Nat.add_zero] at hcons
    subst hcons
    exact ⟨rfl, rfl⟩
  · intro _
    simp only [Op.run, hrun, Result.map]

/-- C18 at the list `[3, 2, 1]`, `randomGet( 5 )`, with a source that always answers `0`. -/
theorem randomGet_samples_receiver_witness :
    (0 : Int) ≤ 5 ∧ (⟨0, [3, 2, 1]⟩ : ListT Nat).fitsInt ∧
    (⟨fun _ _ => 0, 0⟩ : RandomGenerator).inRange ∧
    ∃ (r : ListT Nat) (rng' : RandomGenerator),
      (⟨0, [3, 2, 1]⟩ : ListT Nat).randomGet 5 ⟨fun _ _ => 0, 0⟩ = .ok (r, rng') ∧
      r.count = min 5 (⟨0, [3, 2, 1]⟩ : ListT Nat).count ∧
      (r.theElements.length : Int) = min 5 (⟨0, [3, 2, 1]⟩ : ListT Nat).count ∧
      (∀ x ∈ r.theElements, x ∈ ([3, 2, 1] : List Nat)) ∧
      r.cursor = 0 ∧
      rng'.consulted = 0 + r.theElements.length ∧
      (([3, 2, 1] : List Nat) = [] → r = new ∧ rng' = ⟨fun _ _ => 0, 0⟩) ∧
      (∀ [DecidableEq Nat],
        Op.run (Op.randomGet 5 ⟨fun _ _ => 0, 0⟩ : Op Nat Unit) ⟨0, [3, 2, 1]⟩ = .ok (⟨0, [3, 2, 1]⟩, some r)) :=
  ⟨by decide, by decide, fun _ n hpos => ⟨le_refl 0, hpos⟩,
    randomGet_samples_receiver ⟨0, [3, 2, 1]⟩ 5 ⟨fun _ _ => 0, 0⟩ (by decide) (by decide)
      (fun _ n hpos => ⟨le_refl 0, hpos⟩)⟩

/-! ## Copying and appending one element -/

theorem copy_eq (S : ListT T) (hfit : S.fitsInt) : S.copy = .ok ⟨0, S.theElements⟩ := by
  unfold copy
  rw [forLoop_size S hfit (fun acc x => (add acc x).2)]
  · rw [foldl_add]
    simp [new]
  · intro k hk s
    rw [vectorAt_of_fits _ k hk hfit]

theorem run_copy_eq [DecidableEq T] (S : ListT T) (hfit : S.fitsInt) :
    Op.run (Op.copy : Op T W) S = .ok (S, some ⟨0, S.theElements⟩) := by
  simp only [Op.run, copy_eq S hfit, Result.map]

theorem copyThen_eq [DecidableEq T] (S : ListT T) (hfit : S.fitsInt) (op : Op T W) :
    S.copyThen op = (op.run ⟨0, S.theElements⟩).map (fun r => (S, r.1)) := by
  unfold copyThen
  rw [run_copy_eq S hfit]
  dsimp only
  cases op.run ⟨0, S.theElements⟩ with
  | ok r => rfl
  | error e => rfl

theorem remove_of_lt (S : ListT T) (position : Int) (h0 : 0 ≤ position)
    (hlt : position < S.count) :
    S.remove position = .ok (true, ⟨0, S.theElements.eraseIdx position.toNat⟩) := by
  have hmax : position ≤ INT_MAX := le_trans (le_of_lt hlt) (toInt_le_INT_MAX _)
  have hlen : position < (S.theElements.length : Int) :=
    lt_of_lt_of_le hlt (toInt_le _)
  have hto : toSizeT position = position.toNat := toSizeT_of_nonneg h0 hmax
  have hk : position.toNat < S.theElements.length := by omega
  unfold remove
  rw [hto, if_pos hk, if_pos ⟨h0, hk⟩]

/-- C19: `S.copy()` returns a list with the same elements in the same order and with the
cursor at `0`, whatever the cursor of `S`, and leaves `S` as it was; a following `add`,
`remove`, `reverse` or `clear` (or any other member call) on the copy changes the copy and
leaves `S` as it was. -/
theorem copy_is_an_independent_value [DecidableEq T] (S : ListT T) (hfit : S.fitsInt) :
    S.copy = .ok ⟨0, S.theElements⟩ ∧
    Op.run (Op.copy : Op T W) S = .ok (S, some ⟨0, S.theElements⟩) ∧
    (∀ e : T, S.copyThen (Op.add e : Op T W) = .ok (S, ⟨0, S.theElements ++ [e]⟩)) ∧
    (∀ position : Int, 0 ≤ position → position < S.count →
      S.copyThen (Op.remove position : Op T W)
        = .ok (S, ⟨0, S.theElements.eraseIdx position.toNat⟩)) ∧
    S.copyThen (Op.reverse : Op T W) = .ok (S, ⟨0, S.theElements.reverse⟩) ∧
    S.copyThen (Op.clear : Op T W) = .ok (S, ⟨0, []⟩) ∧
    (∀ (op : Op T W) (S' c' : ListT T), S.copyThen op = .ok (S', c') → S' = S) := by
  refine ⟨copy_eq S hfit, run_copy_eq S hfit, ?_, ?_, ?_, ?_, ?_⟩
  · intro e
    rw [copyThen_eq S hfit]
    rfl
  · intro position h0 hlt
    rw [copyThen_eq S hfit]
    have hlt' : position < (⟨0, S.theElements⟩ : ListT T).count := hlt
    simp only [Op.run, remove_of_lt ⟨0, S.theElements⟩ position h0 hlt', Result.map]
  · rw [copyThen_eq S hfit]
    rfl
  · rw [copyThen_eq S hfit]
    rfl
  · intro op S' c' h
    rw [copyThen_eq S hfit] at h
    obtain ⟨r, -, hr⟩ := Result.map_eq_ok h
    cases hr
    rfl

/-- C19 at the list `[3, 2, 1]` with the cursor at `2`. -/
theorem copy_is_an_independent_value_witness :
    (⟨2, [3, 2, 1]⟩ : ListT Nat).fitsInt ∧
    (⟨2, [3, 2, 1]⟩ : ListT Nat).copy = .ok ⟨0, [3, 2, 1]⟩ ∧
    (⟨2, [3, 2, 1]⟩ : ListT Nat).copyThen (Op.remove 0 : Op Nat Unit)
      = .ok (⟨2, [3, 2, 1]⟩, ⟨0, [2, 1]⟩) ∧
    (⟨2, [3, 2, 1]⟩ : ListT Nat).copyThen (Op.clear : Op Nat Unit)
      = .ok (⟨2, [3, 2, 1]⟩, ⟨0, []⟩) :=
  ⟨by decide,
    (copy_is_an_independent_value (W := Unit) ⟨2, [3, 2, 1]⟩ (by decide)).1,
    by decide, by decide⟩

/-- C20: `add( e )` appends `e` as the new last element, leaves all former elements and the
cursor as they were, and returns the new length, the old `count()` plus one. -/
theorem add_appends_and_returns_new_length (S : ListT T) (e : T)
    (hroom : (S.theElements.length : Int) < INT_MAX) :
    (S.add e).2.theElements = S.theElements ++ [e] ∧
    (S.add e).2.theElements.getLast? = some e ∧
    (∀ (i : Nat), i < S.theElements.length →
      (S.add e).2.theElements[i]? = S.theElements[i]?) ∧
    (S.add e).2.cursor = S.cursor ∧
    (S.add e).1 = S.count + 1 ∧
    (S.add e).1 = (S.add e).2.count := by
  have hfit : S.fitsInt := le_of_lt hroom
  refine ⟨rfl, by simp [add], ?_, rfl, ?_, ?_⟩
  · intro i hi
    simp only [add]
    rw [List.getElem?_append_left hi]
  · simp only [add, count]
    rw [toInt_of_le hfit, toInt_of_le (by push_cast; omega)]
    push_cast
    rfl
  · simp [add, count]

/-- C20 at the list `[3, 2]` with the cursor at `1`, `add( 7 )`. -/
theorem add_appends_and_returns_new_length_witness :
    (((⟨1, [3, 2]⟩ : ListT Nat).theElements.length : Int) < INT_MAX) ∧
    (⟨1, [3, 2]⟩ : ListT Nat).add 7 = (3, ⟨1, [3, 2, 7]⟩) ∧
    ((⟨1, [3, 2]⟩ : ListT Nat).add 7).1 = (⟨1, [3, 2]⟩ : ListT Nat).count + 1 :=
  ⟨by decide, by decide,
    (add_appends_and_returns_new_length ⟨1, [3, 2]⟩ 7 (by decide)).2.2.2.2.1⟩

end ListT

end ListHpp
